import Mathlib

/-!
Verification of the meta-search-engine repository (0xhtml/search-engine).

Shallow embedding of the core data model and algorithms:
  * `URL` with its normalized comparison (src/searchengine/url.py),
  * `Result`, result identity (src/searchengine/results.py, url.py),
  * `CombinedResult.update` and `combine_engine_results`
    (src/searchengine/rate.py),
  * `RatedResult` ordering and `_slice_page` pagination
    (src/searchengine/rate.py),
  * query lexing and parsing (src/searchengine/query.py),
  * `parse_accept_language` (src/searchengine/lang.py),
  * a timed model of the dispatcher `perform_search`
    (src/searchengine/search.py).

Modelling conventions: Python `float` ratings and times are modelled as `ℚ`
(the claims under scrutiny are about the algorithmic structure, not about
floating-point rounding); Python sets that the code iterates over are
modelled as lists; fallible code is out of scope for these claims, whose
preconditions are carried as explicit hypotheses.
-/

/-! ## URL (src/searchengine/url.py)

`URL` is a named tuple `(scheme, host, path, query, fragment)` as produced
by `URL.parse` (the rfc3986 parsing itself is not embedded; theorems use
URL values as `URL.parse` would return them, which the repository's own
test suite `tests/test_url.py` documents).
-/

/-- An URL, as in `class URL(NamedTuple)` of src/searchengine/url.py. -/
structure URL where
  scheme : String
  host : String
  path : String
  query : Option String
  fragment : Option String
deriving DecidableEq

/-- Whether the first list starts with the second (kernel-reducible
replacement for the string-library test). -/
def startsWithL : List Char → List Char → Bool
  | _, [] => true
  | [], _ :: _ => false
  | c :: cs, p :: ps => c = p && startsWithL cs ps

/-- Whether the first list ends with the second. -/
def endsWithL (cs ps : List Char) : Bool :=
  startsWithL cs.reverse ps.reverse

/-- Python `s.removeprefix(p)`: drop `p` if `s` starts with it. -/
def removePre (s p : String) : String :=
  if startsWithL s.toList p.toList then String.mk (s.toList.drop p.toList.length)
  else s

/-- Python `s.removesuffix(p)`: drop `p` if `s` ends with it. -/
def removeSuf (s p : String) : String :=
  if endsWithL s.toList p.toList then
    String.mk (s.toList.take (s.toList.length - p.toList.length))
  else s

/-- `URL._cmp_scheme`: `_COMPARABLE_SCHEMES = \x7b"https": "http"\x7d`,
`_COMPARABLE_SCHEMES.get(self.scheme, self.scheme)`. -/
def URL.cmpScheme (u : URL) : String :=
  if u.scheme = "https" then "http" else u.scheme

/-- `URL._cmp_host`: strip a leading `www.`; a host ending in
`.m.wikipedia.org` is rewritten to end in `.wikipedia.org`. -/
def URL.cmpHost (u : URL) : String :=
  let host := removePre u.host "www."
  if endsWithL host.toList ".m.wikipedia.org".toList then
    removeSuf host ".m.wikipedia.org" ++ ".wikipedia.org"
  else host

/-- One step of `_PATH_REMOVE = regex.compile("/+(?:(?=/)|$)")` applied with
`sub("")`: each maximal interior run of slashes collapses to a single slash
(the regex eats all but the last slash of the run, which survives via the
lookahead) — implemented by dropping a slash that is immediately followed
by another slash. -/
def squeezeSlashes : List Char → List Char
  | [] => []
  | [c] => [c]
  | c1 :: c2 :: rest =>
    if c1 = '/' ∧ c2 = '/' then squeezeSlashes (c2 :: rest)
    else c1 :: squeezeSlashes (c2 :: rest)

/-- Drop a single trailing slash (after `squeezeSlashes`, a trailing run of
slashes — which `_PATH_REMOVE` deletes entirely — is one slash). -/
def dropTrailingSlash (cs : List Char) : List Char :=
  match cs.reverse with
  | '/' :: rest => rest.reverse
  | _ => cs

/-- `_PATH_REMOVE.sub("", path)`: interior slash runs collapse to one slash,
a trailing slash run is removed. -/
def pathRemove (s : String) : String :=
  String.mk (dropTrailingSlash (squeezeSlashes s.toList))

/-- Python `path.replace("%E2%80%93", "-")`: left-to-right non-overlapping
replacement of the nine-character en-dash escape by `-`. -/
def replaceEnDash : List Char → List Char
  | '%' :: 'E' :: '2' :: '%' :: '8' :: '0' :: '%' :: '9' :: '3' :: rest =>
    '-' :: replaceEnDash rest
  | c :: rest => c :: replaceEnDash rest
  | [] => []

/-- `URL._cmp_path`: on hosts ending in `.wikipedia.org` the percent-encoded
en-dash `%E2%80%93` is decoded to `-` first, then `_PATH_REMOVE` is applied. -/
def URL.cmpPath (u : URL) : String :=
  pathRemove
    (if endsWithL u.host.toList ".wikipedia.org".toList then
      String.mk (replaceEnDash u.path.toList)
     else u.path)

/-! Query-string comparison: `URL._cmp_query` is
`parse_qs(self.query, keep_blank_values=True)` and the resulting Python
dicts are compared for equality (key order irrelevant, per-key value lists
compared exactly). -/

/-- Hex digit value of a character, if it is one. -/
def hexVal (c : Char) : Option Nat :=
  if '0' ≤ c ∧ c ≤ '9' then some (c.toNat - '0'.toNat)
  else if 'a' ≤ c ∧ c ≤ 'f' then some (c.toNat - 'a'.toNat + 10)
  else if 'A' ≤ c ∧ c ≤ 'F' then some (c.toNat - 'A'.toNat + 10)
  else none

/-- Percent-decoding as in `urllib.parse.unquote`: a `%` followed by two hex
digits becomes the denoted byte (modelled as the character of that code
point); an ill-formed `%` is kept literally. -/
def percentDecode : List Char → List Char
  | [] => []
  | '%' :: a :: b :: rest =>
    match hexVal a, hexVal b with
    | some ha, some hb => Char.ofNat (16 * ha + hb) :: percentDecode rest
    | _, _ => '%' :: percentDecode (a :: b :: rest)
  | c :: rest => c :: percentDecode rest

/-- `unquote(s.replace('+', ' '))` as applied by `parse_qsl` to each name
and value (a single-character replacement is a pointwise map). -/
def unquotePlus (s : String) : String :=
  String.mk
    (percentDecode (s.toList.map fun c => if c = '+' then ' ' else c))

/-- Split a `name=value` field at the first `=`; `none` if there is no `=`. -/
def splitFirstEq (cs : List Char) : Option (List Char × List Char) :=
  match cs with
  | [] => none
  | '=' :: rest => some ([], rest)
  | c :: rest =>
    match splitFirstEq rest with
    | some (n, v) => some (c :: n, v)
    | none => none

/-- Python `qs.split("&")` on the character list. -/
def splitAmp : List Char → List (List Char)
  | [] => [[]]
  | '&' :: rest => [] :: splitAmp rest
  | c :: rest =>
    match splitAmp rest with
    | g :: gs => (c :: g) :: gs
    | [] => [[c]]

/-- `urllib.parse.parse_qsl(qs, keep_blank_values=True)`: split on `&`,
skip empty fields, split each field at the first `=` (a field without `=`
keeps its name with an empty value since blank values are kept), and
percent-plus-decode names and values. -/
def parseQsl (s : String) : List (String × String) :=
  (splitAmp s.toList).filterMap fun field =>
    if field = [] then none
    else
      match splitFirstEq field with
      | some (n, v) =>
        some (unquotePlus (String.mk n), unquotePlus (String.mk v))
      | none => some (unquotePlus (String.mk field), "")

/-- Values stored under key `k` of the `parse_qs` dict, in insertion order. -/
def qsLookup (l : List (String × String)) (k : String) : List String :=
  (l.filter fun p => p.1 = k).map fun p => p.2

/-- Equality of the two `parse_qs` dicts: same value list for every key
(checking all keys occurring on either side suffices). -/
def qsDictEq (a b : List (String × String)) : Bool :=
  ((a.map fun p => p.1) ++ (b.map fun p => p.1)).all fun k =>
    decide (qsLookup a k = qsLookup b k)

/-- `URL._cmp_query`: `parse_qs(self.query, keep_blank_values=True)`;
`parse_qs(None)` gives the empty dict (urllib coerces `None` to `""`). -/
def URL.cmpQuery (u : URL) : List (String × String) :=
  parseQsl (u.query.getD "")

/-- `URL.__eq__` of src/searchengine/url.py: compare the normalized scheme,
host, path and query dict; the fragment is not compared at all. -/
def urlEq (a b : URL) : Bool :=
  decide (a.cmpScheme = b.cmpScheme) && decide (a.cmpHost = b.cmpHost) &&
    decide (a.cmpPath = b.cmpPath) && qsDictEq a.cmpQuery b.cmpQuery

/-- `URL.geturl`: `scheme://host path` plus `?query` and `#fragment` when
present. -/
def URL.geturl (u : URL) : String :=
  u.scheme ++ "://" ++ u.host ++ u.path ++
    (match u.query with | some q => "?" ++ q | none => "") ++
    (match u.fragment with | some f => "#" ++ f | none => "")

/-! Helper lemmas for the equivalence proof. -/

theorem qsLookup_eq_nil_of_not_mem_keys {l : List (String × String)}
    {k : String} (h : k ∉ l.map fun p => p.1) : qsLookup l k = [] := by
  induction l with
  | nil => rfl
  | cons p rest ih =>
    simp only [List.map_cons, List.mem_cons] at h
    push_neg at h
    simp only [qsLookup, List.filter_cons]
    rw [show (decide (p.1 = k)) = false by simp [Ne.symm h.1]]
    exact ih h.2

theorem qsDictEq_iff {a b : List (String × String)} :
    qsDictEq a b = true ↔ ∀ k, qsLookup a k = qsLookup b k := by
  constructor
  · intro h k
    rw [qsDictEq, List.all_eq_true] at h
    by_cases ha : k ∈ a.map fun p => p.1
    · simpa using h k (by simp [ha])
    · by_cases hb : k ∈ b.map fun p => p.1
      · simpa using h k (by simp [hb])
      · rw [qsLookup_eq_nil_of_not_mem_keys ha, qsLookup_eq_nil_of_not_mem_keys hb]
  · intro h
    rw [qsDictEq, List.all_eq_true]
    intro k _
    simpa using h k

theorem urlEq_iff {a b : URL} :
    urlEq a b = true ↔
      a.cmpScheme = b.cmpScheme ∧ a.cmpHost = b.cmpHost ∧
        a.cmpPath = b.cmpPath ∧ ∀ k, qsLookup a.cmpQuery k = qsLookup b.cmpQuery k := by
  simp [urlEq, qsDictEq_iff, and_assoc]

/-- Example URLs as `URL.parse` returns them (cf. tests/test_url.py). -/
def urlExHttp : URL := ⟨"http", "example.com", "", none, none⟩

def urlExSlash : URL := ⟨"http", "example.com", "/", none, none⟩

def urlExHttpsWww : URL := ⟨"https", "www.example.com", "/", none, none⟩

def urlExFoo : URL := ⟨"http", "example.com", "/foo", none, none⟩

def urlExBar : URL := ⟨"http", "example.com", "/bar", none, none⟩

def urlExQ1 : URL := ⟨"http", "example.com", "/display", some "lang=en&article=fred", none⟩

def urlExQ2 : URL := ⟨"http", "example.com", "/display", some "article=fred&lang=en", none⟩

def urlExQa : URL := ⟨"http", "example.com", "/display", some "a=1", none⟩

def urlExQb : URL := ⟨"http", "example.com", "/display", some "a=2", none⟩

def urlExMWiki : URL := ⟨"http", "en.m.wikipedia.org", "/", none, none⟩

def urlExWiki : URL := ⟨"http", "en.wikipedia.org", "/", none, none⟩

def urlExFrag : URL := ⟨"http", "example.com", "/bar.html", none, some "section1"⟩

def urlExNoFrag : URL := ⟨"http", "example.com", "/bar.html", none, none⟩

/-- C1: the normalized-URL comparison `URL.__eq__` is an equivalence
relation (reflexive, symmetric, transitive), it identifies `https` with
`http`, strips a leading `www.`, canonicalizes `.m.wikipedia.org` hosts,
ignores the fragment and trailing-slash differences, compares query
strings order-insensitively but exactly on keys and values, and in
particular `http://example.com ≡ http://example.com/ ≡
https://www.example.com/` while `http://example.com/foo ≠
http://example.com/bar`. -/
theorem C1_url_eq_equivalence :
    (∀ a : URL, urlEq a a = true) ∧
    (∀ a b : URL, urlEq a b = true → urlEq b a = true) ∧
    (∀ a b c : URL, urlEq a b = true → urlEq b c = true → urlEq a c = true) ∧
    urlEq urlExHttp urlExSlash = true ∧
    urlEq urlExSlash urlExHttpsWww = true ∧
    urlEq urlExHttp urlExHttpsWww = true ∧
    urlEq urlExFoo urlExBar = false ∧
    urlEq urlExQ1 urlExQ2 = true ∧
    urlEq urlExQa urlExQb = false ∧
    urlEq urlExMWiki urlExWiki = true ∧
    urlEq urlExFrag urlExNoFrag = true := by
  refine ⟨?_, ?_, ?_, by decide, by decide, by decide, by decide,
    by decide, by decide, by decide, by decide⟩
  · intro a
    rw [urlEq_iff]
    exact ⟨rfl, rfl, rfl, fun _ => rfl⟩
  · intro a b h
    rw [urlEq_iff] at h ⊢
    exact ⟨h.1.symm, h.2.1.symm, h.2.2.1.symm, fun k => (h.2.2.2 k).symm⟩
  · intro a b c hab hbc
    rw [urlEq_iff] at hab hbc ⊢
    exact ⟨hab.1.trans hbc.1, hab.2.1.trans hbc.2.1, hab.2.2.1.trans hbc.2.2.1,
      fun k => (hab.2.2.2 k).trans (hbc.2.2.2 k)⟩

/-- C1 witness: the symmetry and transitivity parts applied at concrete
URLs. -/
theorem C1_url_eq_equivalence_witness :
    urlEq urlExSlash urlExHttp = true ∧ urlEq urlExHttp urlExHttpsWww = true :=
  ⟨C1_url_eq_equivalence.2.1 urlExHttp urlExSlash (by decide),
   C1_url_eq_equivalence.2.2.1 urlExHttp urlExSlash urlExHttpsWww
     (by decide) (by decide)⟩

/-! ## Results and the merge accumulator (src/searchengine/results.py,
src/searchengine/rate.py)

`Result` is the tagged union `WebResult | ImageResult | AnswerResult`.
Result identity (`__eq__`) compares Web/Image results by the normalized
URL comparison; an `AnswerResult` compares as a plain tuple (URL compared
by the normalized comparison, text exactly) and never equals a Web/Image
result. -/

/-- The `Result` union of src/searchengine/results.py (URLs are the custom
`URL` type that src/searchengine/rate.py operates on). -/
inductive Result where
  | web (url : URL) (title : String) (text : String)
  | image (url : URL) (title : String) (text : String) (src : URL)
  | answer (url : URL) (text : String)
deriving DecidableEq

/-- `result.url`. -/
def Result.url : Result → URL
  | .web u _ _ => u
  | .image u _ _ _ => u
  | .answer u _ => u

/-- `result.text`. -/
def Result.text : Result → String
  | .web _ _ x => x
  | .image _ _ x _ => x
  | .answer _ x => x

/-- `result.title`; an `AnswerResult` has no title field, and the code only
reads `title` under a not-an-answer guard, so the answer case is arbitrary. -/
def Result.title : Result → String
  | .web _ t _ => t
  | .image _ t _ _ => t
  | .answer _ _ => ""

/-- `isinstance(result, AnswerResult)`. -/
def Result.isAnswer : Result → Bool
  | .answer _ _ => true
  | _ => false

/-- `isinstance(result, WebResult)`. -/
def Result.isWeb : Result → Bool
  | .web _ _ _ => true
  | _ => false

/-- `isinstance(result, ImageResult)`. -/
def Result.isImage : Result → Bool
  | .image _ _ _ _ => true
  | _ => false

/-- `result._replace(text=x)`. -/
def Result.setText : Result → String → Result
  | .web u t _, x => .web u t x
  | .image u t _ s, x => .image u t x s
  | .answer u _, x => .answer u x

/-- `result._replace(url=u)`. -/
def Result.setUrl : Result → URL → Result
  | .web _ t x, u => .web u t x
  | .image _ t x s, u => .image u t x s
  | .answer _ x, u => .answer u x

/-- `result._replace(title=t)`; only ever applied to non-answers. -/
def Result.setTitle : Result → String → Result
  | .web u _ x, t => .web u t x
  | .image u _ x s, t => .image u t x s
  | .answer u x, _ => .answer u x

/-- Result identity as used by the merge loop: Web/Image results compare by
the normalized URL comparison (`_result_url_eq`), an answer compares as a
tuple with another answer (URL via the normalized comparison, text
exactly), and mixed answer/non-answer comparisons are false. -/
def resultEq : Result → Result → Bool
  | .web u _ _, .web v _ _ => urlEq u v
  | .web u _ _, .image v _ _ _ => urlEq u v
  | .image u _ _ _, .web v _ _ => urlEq u v
  | .image u _ _ _, .image v _ _ _ => urlEq u v
  | .answer u x, .answer v y => urlEq u v && decide (x = y)
  | _, _ => false

/-- An engine as the merge and rating code sees it: an identity plus its
`weight` (src/searchengine/engines.py, `Engine.__init__`). -/
structure Engine where
  name : String
  weight : ℚ
deriving DecidableEq

/-- `max(e.weight for e in self.engines)`; the engine set of a
`CombinedResult` is never empty (it is created with one engine). -/
def maxWeight : List Engine → ℚ
  | [] => 0
  | e :: es => es.foldl (fun m x => max m x.weight) e.weight

/-- `CombinedResult` of src/searchengine/rate.py: the representative
result, the running rating, the contributing engines (a Python set,
modelled as a duplicate-free list) and the accumulated evaluation text
`_text`. The snippet task is a side effect outside this model. -/
structure CombinedResult where
  result : Result
  rating : ℚ
  engines : List Engine
  text : String

/-- `CombinedResult.__init__(result, rating, engine)`. -/
def CombinedResult.init (r : Result) (rating : ℚ) (e : Engine) : CombinedResult :=
  { result := r
    rating := rating * e.weight
    engines := [e]
    text := r.text ++ (match r with | .answer _ _ => "" | _ => " " ++ r.title) }

/-! `CombinedResult.update(result, rating, engine)` runs five sequential
rewrites of `self.result`, modelled as one named step each (the Python
method body assigns `self.result` in this exact order). -/

/-- Lines 74-77 of rate.py: an Image record hit by a Web sighting converts
to a Web record keeping its own url, title and text (the image source is
dropped). -/
def mergeStepConvert (cr r : Result) : Result :=
  match cr, r with
  | .image u t x _, .web _ _ _ => Result.web u t x
  | _, _ => cr

/-- Lines 79-80: the longer text wins. -/
def mergeStepText (cr r : Result) : Result :=
  if cr.text.length < r.text.length then cr.setText r.text else cr

/-- Lines 82-90: switch to the new sighting's URL when the engine
outweighs all previous contributors, or ties their maximum while the
current URL string is longer than the new one; otherwise upgrade the
current URL's scheme to https when the new sighting's URL is https. -/
def mergeStepUrl (cr r : Result) (maxW : ℚ) (e : Engine) : Result :=
  if e.weight > maxW ∨
      (e.weight = maxW ∧ (cr.url.geturl).length > (r.url.geturl).length) then
    cr.setUrl r.url
  else if r.url.scheme = "https" then
    cr.setUrl { cr.url with scheme := "https" }
  else cr

/-- Lines 92-95: for non-answers, the longer title wins. -/
def mergeStepTitle (cr r : Result) : Result :=
  match cr with
  | .answer _ _ => cr
  | _ => if cr.title.length < r.title.length then cr.setTitle r.title else cr

/-- Lines 97-100: an Image record adopts the new sighting's image source
when the engine outweighs all previous contributors. -/
def mergeStepSrc (cr r : Result) (maxW : ℚ) (e : Engine) : Result :=
  match cr, r with
  | .image u t x _, .image _ _ _ rs =>
    if e.weight > maxW then Result.image u t x rs else cr
  | _, _ => cr

/-- The full representative-result rewrite of `CombinedResult.update`. -/
def mergeResult (cr r : Result) (maxW : ℚ) (e : Engine) : Result :=
  mergeStepSrc
    (mergeStepTitle (mergeStepUrl (mergeStepText (mergeStepConvert cr r) r) r maxW e) r)
    r maxW e

/-- `CombinedResult.update(result, rating, engine)`: rewrite the
representative result, add `rating * engine.weight` and the engine exactly
when the engine is not yet a contributor (lines 102-104), and extend
`_text` with the new sighting's title (non-answers) and text (lines
106-110). -/
def CombinedResult.update (c : CombinedResult) (r : Result) (rating : ℚ)
    (e : Engine) : CombinedResult :=
  { result := mergeResult c.result r (maxWeight c.engines) e
    rating := if e ∈ c.engines then c.rating else c.rating + rating * e.weight
    engines := if e ∈ c.engines then c.engines else e :: c.engines
    text := c.text ++ (match r with | .answer _ _ => "" | _ => " " ++ r.title)
      ++ " " ++ r.text }

theorem setText_url (r : Result) (x : String) : (r.setText x).url = r.url := by
  cases r <;> rfl

theorem setUrl_url (r : Result) (u : URL) : (r.setUrl u).url = u := by
  cases r <;> rfl

theorem setTitle_url (r : Result) (t : String) : (r.setTitle t).url = r.url := by
  cases r <;> rfl

theorem setText_isWeb (r : Result) (x : String) :
    (r.setText x).isWeb = r.isWeb := by cases r <;> rfl

theorem setUrl_isWeb (r : Result) (u : URL) :
    (r.setUrl u).isWeb = r.isWeb := by cases r <;> rfl

theorem setTitle_isWeb (r : Result) (t : String) :
    (r.setTitle t).isWeb = r.isWeb := by cases r <;> rfl

/-- C2: every fold via `CombinedResult.update` adds exactly
`rating * engine.weight` to the running rating and the engine to the
contributor set when the engine is not yet a contributor, and leaves both
unchanged when it already is; in particular folding the same result from
the same engine twice changes neither. -/
theorem C2_update_idempotent_per_engine (c : CombinedResult) (r : Result)
    (k : ℚ) (e : Engine) :
    (e ∉ c.engines →
      (c.update r k e).rating = c.rating + k * e.weight ∧
      (c.update r k e).engines = e :: c.engines) ∧
    (e ∈ c.engines →
      (c.update r k e).rating = c.rating ∧
      (c.update r k e).engines = c.engines) ∧
    ((c.update r k e).update r k e).rating = (c.update r k e).rating ∧
    ((c.update r k e).update r k e).engines = (c.update r k e).engines := by
  by_cases h : e ∈ c.engines <;>
    simp [CombinedResult.update, h]

/-- C2 witness: a fresh engine's contribution is added once and a repeated
fold changes nothing. -/
theorem C2_update_idempotent_per_engine_witness :
    let e0 : Engine := ⟨"bing", 3/2⟩
    let e1 : Engine := ⟨"mojeek", 1⟩
    let r : Result := Result.web ⟨"http", "example.com", "/", none, none⟩ "t" "x"
    let c : CombinedResult := CombinedResult.init r 10 e0
    (c.update r 8 e1).rating = c.rating + 8 * 1 ∧
      (c.update r 8 e1).engines = e1 :: c.engines :=
  (C2_update_idempotent_per_engine (CombinedResult.init
      (Result.web ⟨"http", "example.com", "/", none, none⟩ "t" "x") 10
      ⟨"bing", 3/2⟩)
    (Result.web ⟨"http", "example.com", "/", none, none⟩ "t" "x") 8
    ⟨"mojeek", 1⟩).1 (by decide)

/-- The URL of the result held by a `CombinedResult` after an update: it is
switched to the new sighting's URL exactly when the contributing engine
outweighs all previous contributors, or ties their maximum weight while
the CURRENT URL string is strictly longer than the new one; otherwise, if
the new sighting's URL has scheme https, the record keeps its URL but with
the scheme upgraded to https; otherwise it is unchanged. -/
theorem mergeStepConvert_url (cr r : Result) :
    (mergeStepConvert cr r).url = cr.url := by
  cases cr <;> cases r <;> rfl

theorem mergeStepText_url (cr r : Result) :
    (mergeStepText cr r).url = cr.url := by
  rw [mergeStepText]; split <;> simp [setText_url]

theorem mergeStepTitle_url (cr r : Result) :
    (mergeStepTitle cr r).url = cr.url := by
  cases cr <;> simp only [mergeStepTitle] <;>
    first
    | rfl
    | (split <;> rfl)

theorem mergeStepSrc_url (cr r : Result) (maxW : ℚ) (e : Engine) :
    (mergeStepSrc cr r maxW e).url = cr.url := by
  cases cr <;> cases r <;> simp only [mergeStepSrc] <;>
    first
    | rfl
    | (split <;> rfl)

theorem mergeStepText_text (cr r : Result) :
    (mergeStepText cr r).text =
      if cr.text.length < r.text.length then r.text else cr.text := by
  cases cr <;> rw [mergeStepText] <;> split <;> rfl

theorem update_result_url (c : CombinedResult) (r : Result) (k : ℚ) (e : Engine) :
    (c.update r k e).result.url =
      if e.weight > maxWeight c.engines ∨
          (e.weight = maxWeight c.engines ∧
            (c.result.url.geturl).length > (r.url.geturl).length) then r.url
      else if r.url.scheme = "https" then { c.result.url with scheme := "https" }
      else c.result.url := by
  show (mergeResult c.result r (maxWeight c.engines) e).url = _
  rw [mergeResult, mergeStepSrc_url, mergeStepTitle_url, mergeStepUrl]
  rw [mergeStepText_url, mergeStepConvert_url]
  split
  · simp [setUrl_url]
  · split <;> simp [setUrl_url, mergeStepText_url, mergeStepConvert_url]

/-- C6 counterexample data: a record holding `http://example.com/a` from a
weight-1 engine, updated by an identity-equal sighting
`https://example.com/a#x` from another weight-1 engine. The claim's
conditions (a) — current scheme not https, new scheme https — and (c) —
tied weight and strictly longer new URL string — both hold, so the claim
predicts the record switches to the new sighting's URL; the code instead
keeps the current URL and merely upgrades its scheme. -/
def c6rec : CombinedResult :=
  { result := Result.web ⟨"http", "example.com", "/a", none, none⟩ "t" "x"
    rating := 10
    engines := [⟨"ddg", 1⟩]
    text := "x t" }

def c6new : Result :=
  Result.web ⟨"https", "example.com", "/a", none, some "x"⟩ "t" "x"

def c6eng : Engine := ⟨"brave", 1⟩

/-- C6 counterexample: under conditions (a) and (c) of the claim the
record's URL is NOT switched to the new sighting's URL. -/
theorem C6_url_switch_counterexample :
    resultEq c6rec.result c6new = true ∧
    c6eng.weight = maxWeight c6rec.engines ∧
    (c6new.url.geturl).length > (c6rec.result.url.geturl).length ∧
    c6rec.result.url.scheme ≠ "https" ∧
    c6new.url.scheme = "https" ∧
    (c6rec.update c6new 10 c6eng).result.url ≠ c6new.url := by
  decide

/-- C6 (amended): on every fold of a second-or-later sighting, the
record's URL is switched to the new sighting's URL exactly when the
contributing engine's weight exceeds the maximum weight among engines
already merged into the record, or ties that maximum while the CURRENT URL
string is strictly longer than the new one; when no switch happens and the
new sighting's URL has scheme https, the record keeps its URL with the
scheme upgraded to https; otherwise the URL is unchanged. -/
theorem C6_amended_url_switch (c : CombinedResult) (r : Result) (k : ℚ)
    (e : Engine) (h : resultEq c.result r = true) :
    ((e.weight > maxWeight c.engines ∨
        (e.weight = maxWeight c.engines ∧
          (c.result.url.geturl).length > (r.url.geturl).length)) →
      (c.update r k e).result.url = r.url) ∧
    (¬(e.weight > maxWeight c.engines ∨
        (e.weight = maxWeight c.engines ∧
          (c.result.url.geturl).length > (r.url.geturl).length)) →
      r.url.scheme = "https" →
      (c.update r k e).result.url = { c.result.url with scheme := "https" }) ∧
    (¬(e.weight > maxWeight c.engines ∨
        (e.weight = maxWeight c.engines ∧
          (c.result.url.geturl).length > (r.url.geturl).length)) →
      r.url.scheme ≠ "https" →
      (c.update r k e).result.url = c.result.url) := by
  refine ⟨fun hc => ?_, fun hc hs => ?_, fun hc hs => ?_⟩
  · rw [update_result_url, if_pos hc]
  · rw [update_result_url, if_neg hc, if_pos hs]
  · rw [update_result_url, if_neg hc, if_neg hs]

/-- C6 witness: the amended switch rule applied where the engine outweighs
all previous contributors. -/
theorem C6_amended_url_switch_witness :
    (c6rec.update c6new 10 ⟨"google", 2⟩).result.url = c6new.url :=
  (C6_amended_url_switch c6rec c6new 10 ⟨"google", 2⟩ (by decide)).1
    (Or.inl (by decide))

theorem mergeStepText_isWeb (cr r : Result) :
    (mergeStepText cr r).isWeb = cr.isWeb := by
  rw [mergeStepText]; split <;> simp [setText_isWeb]

theorem mergeStepUrl_isWeb (cr r : Result) (maxW : ℚ) (e : Engine) :
    (mergeStepUrl cr r maxW e).isWeb = cr.isWeb := by
  rw [mergeStepUrl]; split
  · simp [setUrl_isWeb]
  · split <;> simp [setUrl_isWeb]

theorem mergeStepTitle_isWeb (cr r : Result) :
    (mergeStepTitle cr r).isWeb = cr.isWeb := by
  cases cr <;> simp only [mergeStepTitle] <;>
    first
    | rfl
    | (split <;> rfl)

theorem mergeStepSrc_isWeb (cr r : Result) (maxW : ℚ) (e : Engine) :
    (mergeStepSrc cr r maxW e).isWeb = cr.isWeb := by
  cases cr <;> cases r <;> simp only [mergeStepSrc] <;>
    first
    | rfl
    | (split <;> rfl)

/-- C10: merging is Web-biased and deterministic. Updating an Image record
with an identity-equal Web sighting behaves exactly like updating the Web
record that keeps the Image record's url, title and text (the image source
is dropped before the ordinary field-resolution rules run), and the
updated record is a WebResult; updating a Web record with an Image
sighting never converts it to an ImageResult and hence never adopts the
image source. -/
theorem C10_variant_resolution_web_biased (u : URL) (t x : String) (s : URL)
    (rat : ℚ) (engs : List Engine) (txt : String) (v : URL) (t2 x2 : String)
    (k : ℚ) (e : Engine) :
    (CombinedResult.update ⟨Result.image u t x s, rat, engs, txt⟩
        (Result.web v t2 x2) k e =
      CombinedResult.update ⟨Result.web u t x, rat, engs, txt⟩
        (Result.web v t2 x2) k e) ∧
    ((CombinedResult.update ⟨Result.image u t x s, rat, engs, txt⟩
        (Result.web v t2 x2) k e).result.isWeb = true) ∧
    (∀ s2 : URL, (CombinedResult.update ⟨Result.web u t x, rat, engs, txt⟩
        (Result.image v t2 x2 s2) k e).result.isWeb = true) := by
  refine ⟨rfl, ?_, fun s2 => ?_⟩
  · show (mergeResult (Result.image u t x s) (Result.web v t2 x2)
        (maxWeight engs) e).isWeb = true
    rw [mergeResult, mergeStepSrc_isWeb, mergeStepTitle_isWeb,
      mergeStepUrl_isWeb, mergeStepText_isWeb]
    rfl
  · show (mergeResult (Result.web u t x) (Result.image v t2 x2 s2)
        (maxWeight engs) e).isWeb = true
    rw [mergeResult, mergeStepSrc_isWeb, mergeStepTitle_isWeb,
      mergeStepUrl_isWeb, mergeStepText_isWeb]
    rfl

/-! ## Rated results, ordering and pagination (src/searchengine/rate.py) -/

/-- `PAGE_SIZE = 12`. -/
def PAGE_SIZE : ℕ := 12

/-- `RatedResult` of src/searchengine/rate.py (the snippet payload is
irrelevant to ordering and modelled opaquely). -/
structure RatedResult where
  result : Result
  rating : ℚ
  engines : List Engine
  snippet : Option Unit

/-- `RatedResult.__lt__`: when exactly one of the two wraps an
`AnswerResult` the non-answer is the smaller (`self_answer <
other_answer` on Python booleans); otherwise compare ratings. -/
def ratedLt (a b : RatedResult) : Bool :=
  if a.result.isAnswer ≠ b.result.isAnswer then
    !a.result.isAnswer && b.result.isAnswer
  else decide (a.rating < b.rating)

/-- The descending comparison `heapq.nlargest`/`sorted(reverse=True)` use:
`a` may come before `b` iff `not (a < b)`. -/
def ratedGe (a b : RatedResult) : Bool := !(ratedLt a b)

/-- `sorted(results, reverse=True)`: stable descending sort by `__lt__`
(the documented behaviour of `heapq.nlargest(n, it)` is
`sorted(it, reverse=True)[:n]`). -/
def sortDescending (l : List RatedResult) : List RatedResult :=
  l.mergeSort ratedGe

/-- `heapq.nlargest(n, results)`. -/
def nlargest (n : ℕ) (l : List RatedResult) : List RatedResult :=
  (sortDescending l).take n

/-- `_slice_page(results, page)`:
`heapq.nlargest(PAGE_SIZE * page, results)[PAGE_SIZE * (page - 1):]`. -/
def slicePage (l : List RatedResult) (page : ℕ) : List RatedResult :=
  (nlargest (PAGE_SIZE * page) l).drop (PAGE_SIZE * (page - 1))

theorem ratedGe_trans (a b c : RatedResult) :
    ratedGe a b = true → ratedGe b c = true → ratedGe a c = true := by
  cases ha : a.result.isAnswer <;> cases hb : b.result.isAnswer <;>
    cases hc : c.result.isAnswer <;>
    simp_all [ratedGe, ratedLt] <;> intro h1 h2 <;> linarith

theorem ratedGe_total (a b : RatedResult) :
    ratedGe a b || ratedGe b a := by
  cases ha : a.result.isAnswer <;> cases hb : b.result.isAnswer <;>
    simp_all [ratedGe, ratedLt] <;>
    first
    | exact le_total b.rating a.rating
    | exact le_total a.rating b.rating
    | (intro h1; linarith)

theorem sortDescending_pairwise (l : List RatedResult) :
    (sortDescending l).Pairwise fun a b => ratedGe a b = true :=
  List.sorted_mergeSort ratedGe_trans ratedGe_total l

theorem length_sortDescending (l : List RatedResult) :
    (sortDescending l).length = l.length :=
  List.length_mergeSort l

/-- C4: `_slice_page` returns the slice
`[(page-1)*PAGE_SIZE : page*PAGE_SIZE]` of the records in descending rated
order; for 30 consolidated records and `PAGE_SIZE = 12`, page 1 returns
the records ranked 1-12, page 3 the records ranked 25-30 (a partial final
page of 6), and page 4 an empty list. -/
theorem C4_pagination (l : List RatedResult) (h : l.length = 30) :
    (∀ p : ℕ, 1 ≤ p →
      slicePage l p =
        ((sortDescending l).drop (PAGE_SIZE * (p - 1))).take PAGE_SIZE) ∧
    slicePage l 1 = (sortDescending l).take 12 ∧
    slicePage l 3 = (sortDescending l).drop 24 ∧
    (slicePage l 3).length = 6 ∧
    slicePage l 4 = [] := by
  have hlen : (sortDescending l).length = 30 := by
    rw [length_sortDescending, h]
  have hgen : ∀ p : ℕ, 1 ≤ p →
      slicePage l p =
        ((sortDescending l).drop (PAGE_SIZE * (p - 1))).take PAGE_SIZE := by
    intro p hp
    rw [slicePage, nlargest, List.drop_take]
    congr 1
    rw [PAGE_SIZE]
    omega
  refine ⟨hgen, ?_, ?_, ?_, ?_⟩
  · rw [hgen 1 le_rfl]
    simp [PAGE_SIZE]
  · rw [hgen 3 (by omega)]
    have : ((sortDescending l).drop (PAGE_SIZE * (3 - 1))).length = 6 := by
      rw [List.length_drop, hlen, PAGE_SIZE]
    rw [List.take_of_length_le (by rw [this]; norm_num [PAGE_SIZE])]
    norm_num [PAGE_SIZE]
  · rw [hgen 3 (by omega), List.length_take, List.length_drop, hlen, PAGE_SIZE]
    omega
  · rw [hgen 4 (by omega), List.drop_eq_nil_of_le (by rw [hlen]; norm_num [PAGE_SIZE])]
    simp

/-- A concrete rated result for witnesses. -/
def r0 : RatedResult :=
  ⟨Result.answer ⟨"https", "example.com", "/", none, none⟩ "42", 1, [], none⟩

/-- C4 witness: with 30 consolidated records, page 4 is empty and page 3
holds 6 records. -/
theorem C4_pagination_witness :
    slicePage (List.replicate 30 r0) 4 = [] ∧
    (slicePage (List.replicate 30 r0) 3).length = 6 :=
  ⟨(C4_pagination (List.replicate 30 r0) (by simp)).2.2.2.2,
   (C4_pagination (List.replicate 30 r0) (by simp)).2.2.2.1⟩

/-- C5: in the output ordering (descending sort by `RatedResult.__lt__`),
no non-answer record ever precedes an answer record — every Answer-backed
rated result ranks strictly above every non-answer one regardless of
ratings — and within the same answer/non-answer class positions are in
descending rating order. -/
theorem C5_answer_precedence (l : List RatedResult) (i j : ℕ) (hij : i < j)
    (hj : j < (sortDescending l).length) :
    ¬(((sortDescending l).get ⟨i, hij.trans hj⟩).result.isAnswer = false ∧
        ((sortDescending l).get ⟨j, hj⟩).result.isAnswer = true) ∧
    (((sortDescending l).get ⟨i, hij.trans hj⟩).result.isAnswer =
        ((sortDescending l).get ⟨j, hj⟩).result.isAnswer →
      ((sortDescending l).get ⟨j, hj⟩).rating ≤
        ((sortDescending l).get ⟨i, hij.trans hj⟩).rating) := by
  have hp := List.pairwise_iff_getElem.1 (sortDescending_pairwise l) i j
    (hij.trans hj) hj hij
  simp only [List.get_eq_getElem]
  rw [ratedGe, ratedLt] at hp
  cases ha : ((sortDescending l)[i]).result.isAnswer <;>
    cases hb : ((sortDescending l)[j]).result.isAnswer <;>
    simp_all <;> linarith

/-- Concrete rated results for the C5 witness: a high-rated web record and
a low-rated answer record. -/
def c5web : RatedResult :=
  ⟨Result.web ⟨"http", "example.com", "/", none, none⟩ "t" "x", 100, [], none⟩

def c5ans : RatedResult :=
  ⟨Result.answer ⟨"http", "example.com", "/", none, none⟩ "42", 1, [], none⟩

/-- C5 witness: the answer-precedence pair property at positions 0 and 1
of a concrete two-element sort. -/
theorem C5_answer_precedence_witness :
    ¬(((sortDescending [c5web, c5ans]).get
          ⟨0, Nat.lt_trans Nat.zero_lt_one (by simp [length_sortDescending])⟩).result.isAnswer
            = false ∧
        ((sortDescending [c5web, c5ans]).get
          ⟨1, by simp [length_sortDescending]⟩).result.isAnswer = true) :=
  (C5_answer_precedence [c5web, c5ans] 0 1 Nat.zero_lt_one
    (by simp [length_sortDescending])).1

/-! ## Folding one engine's result list (src/searchengine/rate.py,
`combine_engine_results`)

The Python loop walks `enumerate(engine_results)`; for each result it
scans the combined set for an identity-equal record, updates the first hit
and otherwise adds a fresh `CombinedResult`. The set is modelled as a
list; the snippet-prefetch side effect at the end of the function does not
touch the combined records and is outside the model. -/

/-- The inner `for combined_result in combined_results: ... break / else:
add` of `combine_engine_results`: update the first identity-equal record,
otherwise append a fresh one. -/
def foldResult (e : Engine) (r : Result) (k : ℚ) :
    List CombinedResult → List CombinedResult
  | [] => [CombinedResult.init r k e]
  | c :: cs =>
    if resultEq c.result r then c.update r k e :: cs
    else c :: foldResult e r k cs

/-- The outer loop from position `i` on; the position score
`(1.25 ** -i) * 10` is `(4/5)^i * 10` exactly. -/
def combineGo (e : Engine) : ℕ → List Result → List CombinedResult →
    List CombinedResult
  | _, [], acc => acc
  | i, r :: rest, acc =>
    combineGo e (i + 1) rest (foldResult e r ((4/5 : ℚ) ^ i * 10) acc)

/-- `combine_engine_results(session, engine, engine_results, page,
combined_results)` restricted to its effect on the combined set. -/
def combine_engine_results (e : Engine) (rs : List Result)
    (acc : List CombinedResult) : List CombinedResult :=
  combineGo e 0 rs acc

/-- The records created for a run of all-new results, starting at
position `i`. -/
def initsFrom (e : Engine) : ℕ → List Result → List CombinedResult
  | _, [] => []
  | i, r :: rest =>
    CombinedResult.init r ((4/5 : ℚ) ^ i * 10) e :: initsFrom e (i + 1) rest

theorem foldResult_all_new (e : Engine) (r : Result) (k : ℚ)
    (acc : List CombinedResult) (h : ∀ c ∈ acc, resultEq c.result r = false) :
    foldResult e r k acc = acc ++ [CombinedResult.init r k e] := by
  induction acc with
  | nil => rfl
  | cons c cs ih =>
    rw [foldResult, if_neg]
    · rw [ih fun x hx => h x (List.mem_cons_of_mem c hx)]
      rfl
    · rw [h c (List.mem_cons_self c cs)]
      simp

theorem combineGo_all_new (e : Engine) (rs : List Result) :
    ∀ (i : ℕ) (acc : List CombinedResult),
      (∀ r ∈ rs, ∀ c ∈ acc, resultEq c.result r = false) →
      rs.Pairwise (fun a b => resultEq a b = false) →
      combineGo e i rs acc = acc ++ initsFrom e i rs := by
  induction rs with
  | nil => intro i acc _ _; simp [combineGo, initsFrom]
  | cons r rest ih =>
    intro i acc hnew hdist
    rw [combineGo, foldResult_all_new e r _ acc
      (hnew r (List.mem_cons_self r rest))]
    rw [ih (i + 1) (acc ++ [CombinedResult.init r ((4/5 : ℚ) ^ i * 10) e]) ?_
      (List.Pairwise.of_cons hdist)]
    · rw [initsFrom]; simp
    · intro r2 hr2 c hc
      rcases List.mem_append.1 hc with hc1 | hc1
      · exact hnew r2 (List.mem_cons_of_mem r hr2) c hc1
      · rw [List.mem_singleton.1 hc1]
        exact (List.pairwise_cons.1 hdist).1 r2 hr2

theorem length_initsFrom (e : Engine) (rs : List Result) :
    ∀ i : ℕ, (initsFrom e i rs).length = rs.length := by
  induction rs with
  | nil => intro i; rfl
  | cons r rest ih => intro i; rw [initsFrom, List.length_cons, ih, List.length_cons]

theorem initsFrom_get (e : Engine) (rs : List Result) :
    ∀ (k i : ℕ) (hi : i < rs.length),
      (initsFrom e k rs).get ⟨i, by rw [length_initsFrom]; exact hi⟩ =
        CombinedResult.init (rs.get ⟨i, hi⟩) ((4/5 : ℚ) ^ (k + i) * 10) e := by
  induction rs with
  | nil => intro k i hi; exact absurd hi (by simp)
  | cons r rest ih =>
    intro k i hi
    cases i with
    | zero => simp [initsFrom]
    | succ i2 =>
      have := ih (k + 1) i2 (Nat.lt_of_succ_lt_succ hi)
      simp only [initsFrom, List.get_cons_succ]
      rw [this]
      ring_nf

/-- A family of pairwise non-identical web results (hosts `h`, `ha`,
`haa`, ...), used to exhibit folds of arbitrarily long engine result
lists. -/
def hostN (n : ℕ) : String := String.mk ('h' :: List.replicate n 'a')

def urlN (n : ℕ) : URL := ⟨"http", hostN n, "", none, none⟩

def webN (n : ℕ) : Result := Result.web (urlN n) "t" "x"

theorem startsWithL_false_of_head_ne {c : Char} (cs : List Char) {p : Char}
    (ps : List Char) (h : c ≠ p) : startsWithL (c :: cs) (p :: ps) = false := by
  simp [startsWithL, h]

theorem cmpHost_urlN (n : ℕ) : (urlN n).cmpHost = hostN n := by
  have htl : (hostN n).toList = 'h' :: List.replicate n 'a' := rfl
  have hrev : ('h' :: List.replicate n 'a').reverse =
      List.replicate n 'a' ++ ['h'] := by
    simp
  rw [URL.cmpHost]
  have h1 : removePre (urlN n).host "www." = hostN n := by
    show removePre (hostN n) "www." = hostN n
    rw [removePre, if_neg]
    rw [htl, show ("www.".toList) = ['w', 'w', 'w', '.'] from rfl]
    rw [startsWithL_false_of_head_ne _ _ (by decide)]
    simp
  rw [h1, if_neg]
  rw [endsWithL, htl, hrev]
  rw [show ((".m.wikipedia.org".toList).reverse) = 'g' :: "ro.aidepikiw.m.".toList
    from by decide]
  cases n with
  | zero => decide
  | succ k =>
    rw [List.replicate_succ, List.cons_append,
      startsWithL_false_of_head_ne _ _ (by decide)]
    simp

theorem urlN_inj {i j : ℕ} (h : urlEq (urlN i) (urlN j) = true) : i = j := by
  have h2 := (urlEq_iff.1 h).2.1
  rw [cmpHost_urlN, cmpHost_urlN] at h2
  have h3 : ('h' :: List.replicate i 'a') = ('h' :: List.replicate j 'a') := by
    have := congrArg String.toList h2
    simpa [hostN] using this
  have h4 := congrArg List.length h3
  simpa using h4

theorem webN_distinct {i j : ℕ} (h : i ≠ j) :
    resultEq (webN i) (webN j) = false := by
  rw [webN, webN, resultEq]
  by_contra hc
  exact h (urlN_inj (by simpa using hc))

/-- C9 counterexample: no truncation bound exists — for every candidate
`MAX_RESULTS` there is an engine result list whose positions at and beyond
the bound still create consolidated records, so folding the full list
differs from folding its truncation. -/
theorem C9_truncation_counterexample :
    ¬ ∃ m : ℕ, ∀ (e : Engine) (rs : List Result) (acc : List CombinedResult),
      combine_engine_results e rs acc =
        combine_engine_results e (rs.take m) acc := by
  rintro ⟨m, hm⟩
  have e0 : Engine := ⟨"g", 1⟩
  have hdist : ((List.range (m + 1)).map webN).Pairwise
      fun a b => resultEq a b = false := by
    rw [List.pairwise_map]
    exact (List.pairwise_lt_range (m + 1)).imp fun hij =>
      webN_distinct (Nat.ne_of_lt hij)
  have hfull : combine_engine_results ⟨"g", 1⟩ ((List.range (m + 1)).map webN) []
      = initsFrom ⟨"g", 1⟩ 0 ((List.range (m + 1)).map webN) := by
    rw [combine_engine_results,
      combineGo_all_new _ _ 0 [] (by simp) hdist]
    rfl
  have htake : combine_engine_results ⟨"g", 1⟩
      (((List.range (m + 1)).map webN).take m) []
      = initsFrom ⟨"g", 1⟩ 0 (((List.range (m + 1)).map webN).take m) := by
    rw [combine_engine_results,
      combineGo_all_new _ _ 0 [] (by simp)
        (hdist.sublist (List.take_sublist m _))]
    rfl
  have hlen := congrArg List.length
    (hm ⟨"g", 1⟩ ((List.range (m + 1)).map webN) [])
  rw [hfull, htake, length_initsFrom, length_initsFrom] at hlen
  simp at hlen

/-- C9 (amended): `combine_engine_results` applies no per-engine
truncation: every position `i` of the engine result list is considered.
Folding a list of pairwise non-identical results into an empty set creates
one consolidated record per position, the record at position `i` wrapping
that result with rating `(1.25 ** -i) * 10 * engine.weight`. -/
theorem C9_amended_all_positions_fold (e : Engine) (rs : List Result)
    (hdist : rs.Pairwise fun a b => resultEq a b = false) :
    combine_engine_results e rs [] = initsFrom e 0 rs ∧
    (combine_engine_results e rs []).length = rs.length ∧
    ∀ (i : ℕ) (hi : i < rs.length), ∃ c ∈ combine_engine_results e rs [],
      c.result = rs.get ⟨i, hi⟩ ∧ c.rating = (4/5 : ℚ) ^ i * 10 * e.weight := by
  have hfull : combine_engine_results e rs [] = initsFrom e 0 rs := by
    rw [combine_engine_results, combineGo_all_new _ _ 0 [] (by simp) hdist]
    rfl
  refine ⟨hfull, by rw [hfull, length_initsFrom], fun i hi => ?_⟩
  refine ⟨(initsFrom e 0 rs).get ⟨i, by rw [length_initsFrom]; exact hi⟩,
    by rw [hfull]; exact List.get_mem _ _ _, ?_⟩
  rw [initsFrom_get e rs 0 i hi]
  refine ⟨rfl, ?_⟩
  show ((4/5 : ℚ) ^ (0 + i) * 10) * e.weight = (4/5 : ℚ) ^ i * 10 * e.weight
  rw [Nat.zero_add]

/-- C9 witness: folding a two-element distinct list creates two records,
the second with rating `(4/5) * 10 * weight`. -/
theorem C9_amended_all_positions_fold_witness :
    (combine_engine_results ⟨"g", 3/2⟩ [webN 0, webN 1] []).length = 2 ∧
    ∃ c ∈ combine_engine_results ⟨"g", 3/2⟩ [webN 0, webN 1] [],
      c.result = webN 1 ∧ c.rating = (4/5 : ℚ) ^ 1 * 10 * (3/2 : ℚ) :=
  ⟨(C9_amended_all_positions_fold ⟨"g", 3/2⟩ [webN 0, webN 1]
      (by simp [webN_distinct])).2.1,
   (C9_amended_all_positions_fold ⟨"g", 3/2⟩ [webN 0, webN 1]
      (by simp [webN_distinct])).2.2 1 (by simp)⟩

/-! ## Query parsing (src/searchengine/query.py)

The ply lexer tries the rules in definition order at each position —
`t_LANG` (regex `lang:\S+|:(de|en)(?!\S)`), `t_SITE` (`site:\S+`),
`t_QUOTED_WORD` (a double-quoted run, unterminated tolerated), then
`t_WORD` (`\S+`) — skipping `t_ignore = " "` (a space); any other
whitespace character matches no rule and raises `t_error`, modelled as
`none`. `QUOTED_WORD` and `WORD` tokens are treated identically by
`parse_query` and share one constructor. -/

/-- Python regex `\s` (the complement of `\S`). -/
def pySpace (c : Char) : Bool :=
  c = ' ' || c = '\t' || c = '\n' || c = '\r' || c = '\x0b' || c = '\x0c'

/-- Maximal `\S+` run: the greedy non-whitespace span and the rest. -/
def spanNS : List Char → List Char × List Char
  | [] => ([], [])
  | c :: rest =>
    if pySpace c then ([], c :: rest)
    else
      let r := spanNS rest
      (c :: r.1, r.2)

/-- Maximal `[^"]+` run: the greedy non-quote span and the rest. -/
def spanNQ : List Char → List Char × List Char
  | [] => ([], [])
  | c :: rest =>
    if c = '"' then ([], c :: rest)
    else
      let r := spanNQ rest
      (c :: r.1, r.2)

/-- A lexer token: `LANG`, `SITE`, or a word (`QUOTED_WORD`/`WORD`). -/
inductive QToken where
  | lang (v : String)
  | site (v : String)
  | word (v : String)
deriving DecidableEq

/-- Whether `(?!\S)` holds at this position: end of input or whitespace. -/
def headSpace : List Char → Bool
  | [] => true
  | c :: _ => pySpace c

/-- `t_LANG`, regex `lang:\S+|:(de|en)(?!\S)`; the token value is the match
after `removeprefix("lang").removeprefix(":")`. -/
def tryLang : List Char → Option (String × List Char)
  | 'l' :: 'a' :: 'n' :: 'g' :: ':' :: c6 :: rest =>
    if pySpace c6 then none
    else some (String.mk (spanNS (c6 :: rest)).1, (spanNS (c6 :: rest)).2)
  | ':' :: 'd' :: 'e' :: rest =>
    if headSpace rest then some ("de", rest) else none
  | ':' :: 'e' :: 'n' :: rest =>
    if headSpace rest then some ("en", rest) else none
  | _ => none

/-- `t_SITE`, regex `site:\S+`; the value drops the `site:` marker. -/
def trySite : List Char → Option (String × List Char)
  | 's' :: 'i' :: 't' :: 'e' :: ':' :: c6 :: rest =>
    if pySpace c6 then none
    else some (String.mk (spanNS (c6 :: rest)).1, (spanNS (c6 :: rest)).2)
  | _ => none

/-- `t_QUOTED_WORD`, regex `"[^"]+("|$)`; the value strips the quotes. -/
def tryQuoted : List Char → Option (String × List Char)
  | '"' :: rest =>
    match h : (spanNQ rest).1 with
    | [] => none
    | tok0 :: tok =>
      match (spanNQ rest).2 with
      | '"' :: r3 => some (String.mk (tok0 :: tok), r3)
      | r2 => some (String.mk (tok0 :: tok), r2)
  | _ => none

/-- The ply token loop, fuelled (one unit per emitted token or skipped
space; `fuel = length of the input` always suffices since every step
consumes at least one character). -/
def lexGo : ℕ → List Char → Option (List QToken)
  | _, [] => some []
  | 0, _ :: _ => none
  | fuel + 1, c :: rest =>
    if c = ' ' then lexGo fuel rest
    else
      match tryLang (c :: rest) with
      | some (v, r2) => (lexGo fuel r2).map fun ts => QToken.lang v :: ts
      | none =>
        match trySite (c :: rest) with
        | some (v, r2) => (lexGo fuel r2).map fun ts => QToken.site v :: ts
        | none =>
          match tryQuoted (c :: rest) with
          | some (v, r2) => (lexGo fuel r2).map fun ts => QToken.word v :: ts
          | none =>
            if pySpace c then none
            else (lexGo fuel (spanNS (c :: rest)).2).map fun ts =>
              QToken.word (String.mk (spanNS (c :: rest)).1) :: ts

/-- Tokenize a query string. -/
def lexQuery (s : String) : Option (List QToken) :=
  lexGo s.toList.length s.toList

/-- `SearchMode` of src/searchengine/query.py. -/
inductive SearchMode where
  | web
  | images
  | scholar
deriving DecidableEq

/-- `ParsedQuery` of src/searchengine/query.py. -/
structure ParsedQuery where
  words : List String
  mode : SearchMode
  page : ℕ
  lang : String
  site : Option String
deriving DecidableEq

/-- Python `" ".join(words)`. -/
def joinWords : List String → String
  | [] => ""
  | [w] => w
  | w :: rest => w ++ " " ++ joinWords rest

/-- `QueryParser.parse_query(query, mode, page)`: walk the tokens keeping
the last `LANG` and `SITE` values and collecting the other tokens as
words; an absent language falls back to the external detector applied to
the joined words (the detector is a parameter of the model). `none` when
the lexer raises. -/
def parse_query (q : String) (mode : SearchMode) (page : ℕ)
    (det : String → String) : Option ParsedQuery :=
  (lexQuery q).map fun ts =>
    let acc := ts.foldl
      (fun acc t =>
        match t with
        | QToken.lang v => (acc.1, some v, acc.2.2)
        | QToken.site v => (acc.1, acc.2.1, some v)
        | QToken.word v => (acc.1 ++ [v], acc.2.1, acc.2.2))
      ([], none, none)
    { words := acc.1
      mode := mode
      page := page
      lang := (acc.2.1).getD (det (joinWords acc.1))
      site := acc.2.2 }

/-- The word values of a token list. -/
def tokenWords (ts : List QToken) : List String :=
  ts.filterMap fun t => match t with | QToken.word v => some v | _ => none

/-- The last `LANG` value of a token list, if any. -/
def lastLang (ts : List QToken) : Option String :=
  (ts.filterMap fun t => match t with | QToken.lang v => some v | _ => none).getLast?

/-- The last `SITE` value of a token list, if any. -/
def lastSite (ts : List QToken) : Option String :=
  (ts.filterMap fun t => match t with | QToken.site v => some v | _ => none).getLast?

theorem getLastQ_cons {α : Type} (a : α) (l : List α) :
    (a :: l).getLast? = l.getLast?.or (some a) := by
  cases l with
  | nil => rfl
  | cons b m =>
    rw [List.getLast?_cons_cons]
    have h : (b :: m).getLast?.isSome := by
      rw [List.getLast?_isSome]
      simp
    obtain ⟨x, hx⟩ := Option.isSome_iff_exists.1 h
    rw [hx]
    rfl

theorem parse_fold_characterization (ts : List QToken) :
    ∀ (ws : List String) (l s : Option String),
      ts.foldl
        (fun acc t =>
          match t with
          | QToken.lang v => (acc.1, some v, acc.2.2)
          | QToken.site v => (acc.1, acc.2.1, some v)
          | QToken.word v => (acc.1 ++ [v], acc.2.1, acc.2.2))
        (ws, l, s) =
      (ws ++ tokenWords ts, (lastLang ts).or l, (lastSite ts).or s) := by
  induction ts with
  | nil => intro ws l s; simp [tokenWords, lastLang, lastSite]
  | cons t rest ih =>
    intro ws l s
    cases t with
    | lang v =>
      rw [List.foldl_cons, ih]
      simp only [tokenWords, lastLang, lastSite, List.filterMap_cons]
      rw [getLastQ_cons]
      cases hr : ((rest.filterMap fun t => match t with
        | QToken.lang v => some v | _ => none).getLast?) <;> simp [Option.or]
    | site v =>
      rw [List.foldl_cons, ih]
      simp only [tokenWords, lastLang, lastSite, List.filterMap_cons]
      rw [getLastQ_cons]
      cases hr : ((rest.filterMap fun t => match t with
        | QToken.site v => some v | _ => none).getLast?) <;> simp [Option.or]
    | word v =>
      rw [List.foldl_cons, ih]
      simp [tokenWords, lastLang, lastSite]

/-- C7 counterexample: `:fr` is two letters followed by a space/end, so
the claim says it sets the explicit language override to `fr` and is
excluded from the words; in the code the bare form only matches `:de` and
`:en` (regex `:(de|en)(?!\S)`), so `:fr` is an ordinary word and the
language falls back to the external detector. -/
theorem C7_bare_lang_counterexample :
    parse_query ":fr" SearchMode.web 1 (fun _ => "en") =
      some { words := [":fr"], mode := SearchMode.web, page := 1,
             lang := "en", site := none } ∧
    parse_query ":fr" SearchMode.web 1 (fun _ => "en") ≠
      some { words := [], mode := SearchMode.web, page := 1,
             lang := "fr", site := none } := by
  constructor
  · decide
  · decide

/-- C7 (amended): for every query string that lexes, parsing removes the
special tokens from the word list and records them — every `site:<value>`
token sets the site restriction (last one wins) and is excluded from
words, and every `lang:<value>` token, or bare `:de` / `:en` (the only
two-letter bare forms the lexer accepts) not followed by a non-space,
sets the explicit language override and is excluded from words; in
particular `"New York" site:nytimes.com lang:de` yields words
`["New York"]`, site `nytimes.com` and language `de`. -/
theorem C7_amended_query_parsing :
    (∀ (q : String) (mode : SearchMode) (page : ℕ) (det : String → String)
        (ts : List QToken), lexQuery q = some ts →
      parse_query q mode page det = some
        { words := tokenWords ts
          mode := mode
          page := page
          lang := (lastLang ts).getD (det (joinWords (tokenWords ts)))
          site := lastSite ts }) ∧
    lexQuery "site:nytimes.com" = some [QToken.site "nytimes.com"] ∧
    lexQuery "lang:de" = some [QToken.lang "de"] ∧
    lexQuery ":de" = some [QToken.lang "de"] ∧
    lexQuery ":en x" = some [QToken.lang "en", QToken.word "x"] ∧
    (∀ det : String → String,
      parse_query "\"New York\" site:nytimes.com lang:de" SearchMode.web 1 det =
        some { words := ["New York"], mode := SearchMode.web, page := 1,
               lang := "de", site := some "nytimes.com" }) := by
  refine ⟨?_, by decide, by decide, by decide, by decide, ?_⟩
  · intro q mode page det ts h
    rw [parse_query, h]
    simp only [Option.map]
    rw [parse_fold_characterization ts [] none none]
    cases hl : lastLang ts <;> cases hs2 : lastSite ts <;>
      simp [Option.or]
  · intro det
    have h : lexQuery "\"New York\" site:nytimes.com lang:de" =
        some [QToken.word "New York", QToken.site "nytimes.com",
          QToken.lang "de"] := by decide
    rw [parse_query, h]
    simp only [Option.map]
    rw [parse_fold_characterization _ [] none none]
    simp [tokenWords, lastLang, lastSite, Option.or]

/-- C7 witness: the universal part of the amended claim applied to the
concrete query `:de`. -/
theorem C7_amended_query_parsing_witness :
    parse_query ":de" SearchMode.web 1 (fun _ => "zz") = some
      { words := tokenWords [QToken.lang "de"]
        mode := SearchMode.web
        page := 1
        lang := (lastLang [QToken.lang "de"]).getD
          ((fun _ => "zz") (joinWords (tokenWords [QToken.lang "de"])))
        site := lastSite [QToken.lang "de"] } :=
  C7_amended_query_parsing.1 ":de" SearchMode.web 1 (fun _ => "zz")
    [QToken.lang "de"] (by decide)

/-! ## Accept-Language parsing (src/searchengine/lang.py)

`parse_accept_language` applies `regex.match` with the RFC 9110
`Accept-Language` pattern and returns `dict.fromkeys(match.captures("lang"))`
as a list. The `lang` group captures only the leading `1*8ALPHA` primary
subtag of each non-wildcard language range; a `*` range captures nothing;
`match` (prefix matching, fully optional pattern) never fails. The
pattern is modelled as a greedy scanner: every alternative/option of the
regex either succeeds greedily or lets the overall prefix match end, so
greedy parsing without global backtracking is exact here. Crucially, the
q-value of a `weight` is consumed and discarded — it never influences the
order of the captures. -/

/-- `ALPHA` of RFC 4234. -/
def isAlphaAZ (c : Char) : Bool := ('A' ≤ c && c ≤ 'Z') || ('a' ≤ c && c ≤ 'z')

/-- `alphanum` of RFC 4647. -/
def isAlphaNumB (c : Char) : Bool := isAlphaAZ c || ('0' ≤ c && c ≤ '9')

/-- `DIGIT`. -/
def isDigitB (c : Char) : Bool := '0' ≤ c && c ≤ '9'

/-- `OWS` characters: space and horizontal tab. -/
def isOWS (c : Char) : Bool := c = ' ' || c = '\t'

/-- Greedy run of at most `n` characters satisfying `p`, with the rest. -/
def takeMax (p : Char → Bool) : ℕ → List Char → List Char × List Char
  | 0, cs => ([], cs)
  | _ + 1, [] => ([], [])
  | n + 1, c :: rest =>
    if p c then
      let r := takeMax p n rest
      (c :: r.1, r.2)
    else ([], c :: rest)

/-- `OWS = *( SP / HTAB )`, greedy. -/
def skipOWS : List Char → List Char
  | [] => []
  | c :: rest => if isOWS c then skipOWS rest else c :: rest

/-- `(?:-alphanum\x7b1,8\x7d)*`, greedy, fuelled (each iteration consumes at
least two characters, so fuel = input length suffices). -/
def skipSubtags : ℕ → List Char → List Char
  | 0, cs => cs
  | fuel + 1, cs =>
    match cs with
    | '-' :: c :: rest =>
      if isAlphaNumB c then skipSubtags fuel (takeMax isAlphaNumB 7 rest).2
      else cs
    | _ => cs

/-- `language-range`: `(?<lang>ALPHA\x7b1,8\x7d)(?:-alphanum\x7b1,8\x7d)*`
capturing the primary subtag, or `*` capturing nothing. -/
def parseRange (cs : List Char) : Option (Option String × List Char) :=
  match takeMax isAlphaAZ 8 cs with
  | ([], _) =>
    match cs with
    | '*' :: rest => some (none, rest)
    | _ => none
  | (tok, rest) => some (some (String.mk tok), skipSubtags rest.length rest)

/-- `qvalue = ( "0" [ "." 0*3DIGIT ] ) / ( "1" [ "." 0*3("0") ] )`; returns
the rest after the greedy qvalue, `none` when no qvalue starts here. -/
def parseQvalue : List Char → Option (List Char)
  | '0' :: rest =>
    match rest with
    | '.' :: r2 => some (takeMax isDigitB 3 r2).2
    | _ => some rest
  | '1' :: rest =>
    match rest with
    | '.' :: r2 => some (takeMax (fun c => c = '0') 3 r2).2
    | _ => some rest
  | _ => none

/-- `weight? = (OWS ";" OWS "q=" qvalue)?`: consume the weight when it
matches in full, otherwise consume nothing. -/
def parseWeight (cs : List Char) : List Char :=
  match skipOWS cs with
  | ';' :: r1 =>
    match skipOWS r1 with
    | 'q' :: '=' :: r2 =>
      match parseQvalue r2 with
      | some r3 => r3
      | none => cs
    | _ => cs
  | _ => cs

/-- `(?:OWS "," OWS language-range weight?)*`, greedy, fuelled (each
iteration consumes at least the comma): collect the captures in order. -/
def parseMore : ℕ → List Char → List (Option String) → List (Option String)
  | 0, _, acc => acc
  | fuel + 1, cs, acc =>
    match skipOWS cs with
    | ',' :: r1 =>
      match parseRange (skipOWS r1) with
      | some (cap, r2) => parseMore fuel (parseWeight r2) (acc ++ [cap])
      | none => acc
    | _ => acc

/-- `match.captures("lang")` of the Accept-Language pattern applied with
prefix semantics: the captures of all matched language ranges in header
order (`none` marks a wildcard range, which captures nothing). -/
def acceptLanguageCaptures (s : String) : List (Option String) :=
  match parseRange s.toList with
  | none => []
  | some (cap, r2) => parseMore s.toList.length (parseWeight r2) [cap]

/-- `dict.fromkeys(...)`: drop later duplicates, keeping first
occurrences in order. -/
def dedupKeepFirst (seen : List String) : List String → List String
  | [] => []
  | x :: rest =>
    if x ∈ seen then dedupKeepFirst seen rest
    else x :: dedupKeepFirst (x :: seen) rest

/-- `parse_accept_language(value)` of src/searchengine/lang.py. -/
def parse_accept_language (s : String) : List String :=
  dedupKeepFirst [] ((acceptLanguageCaptures s).filterMap id)

/-- Modelled from the spec (the comparison definition for this claim, not
from the code): the language ranges "ordered by descending q, ties
preserve header order" — a stable insertion sort by descending q-value
over (range, q) pairs, q defaulting to 1 when absent. -/
def insertByQ (e : String × ℚ) : List (String × ℚ) → List (String × ℚ)
  | [] => [e]
  | x :: rest => if x.2 < e.2 then e :: x :: rest else x :: insertByQ e rest

/-- Modelled from the spec: the claimed output order for a header with the
given (range, q) entries. -/
def specAcceptLanguage (entries : List (String × ℚ)) : List String :=
  (entries.foldl (fun acc e => insertByQ e acc) []).map fun e => e.1

/-! ### The full Accept-Language grammar as a render family

lang.py's pattern is

    (?: range weight? (?: OWS "," OWS range weight? )* )?

with `range` either a captured primary tag of 1..8 ALPHA followed by any
number of `-` + 1..8 alphanum subtags, or an uncaptured `*`;
`weight = OWS ";" OWS "q=" qvalue`; and
`qvalue = "0" ["." 0*3DIGIT] / "1" ["." 0*3"0"]`.

The structures below mirror those productions one-to-one: a header is
empty or a first entry plus a list of (separator, entry) pairs; an entry
is a range (wildcard, or a primary tag with subtags) and an optional
weight; separators and weights carry arbitrary OWS; qvalues take the four
grammar forms. Every syntactically valid Accept-Language header value is
therefore `renderALHeader` of a well-formed value of this family, and the
universal theorem below ranges over all of them. -/

/-- The four `qvalue` productions. -/
inductive QvalForm where
  | zeroDot (ds : List Char)
  | zeroPlain
  | oneDot (zs : List Char)
  | onePlain

/-- Render a qvalue. -/
def renderQval : QvalForm → List Char
  | QvalForm.zeroDot ds => '0' :: '.' :: ds
  | QvalForm.zeroPlain => ['0']
  | QvalForm.oneDot zs => '1' :: '.' :: zs
  | QvalForm.onePlain => ['1']

/-- Grammar side conditions of a qvalue: at most three digits after
`0.`, at most three zeros after `1.`. -/
def validQval : QvalForm → Prop
  | QvalForm.zeroDot ds => ds.length ≤ 3 ∧ ∀ c ∈ ds, isDigitB c = true
  | QvalForm.zeroPlain => True
  | QvalForm.oneDot zs => zs.length ≤ 3 ∧ ∀ c ∈ zs, c = '0'
  | QvalForm.onePlain => True

/-- A run of optional-whitespace characters. -/
def validOWS (l : List Char) : Prop := ∀ c ∈ l, isOWS c = true

/-- A `weight`: `OWS ";" OWS "q=" qvalue`. -/
structure ALWeight where
  ows1 : List Char
  ows2 : List Char
  q : QvalForm

def renderWeight (w : ALWeight) : List Char :=
  w.ows1 ++ ';' :: (w.ows2 ++ 'q' :: '=' :: renderQval w.q)

def validWeight (w : ALWeight) : Prop :=
  validOWS w.ows1 ∧ validOWS w.ows2 ∧ validQval w.q

/-- Render an optional weight (`weight?`). -/
def renderWeightOpt : Option ALWeight → List Char
  | some w => renderWeight w
  | none => []

def validWeightOpt : Option ALWeight → Prop
  | some w => validWeight w
  | none => True

/-- The `-` + subtag repetitions of a language range. -/
def renderSubtags : List (List Char) → List Char
  | [] => []
  | s :: rest => '-' :: (s ++ renderSubtags rest)

/-- A subtag: 1..8 alphanumeric characters. -/
def validSubtag (s : List Char) : Prop :=
  s ≠ [] ∧ s.length ≤ 8 ∧ ∀ c ∈ s, isAlphaNumB c = true

/-- A language range: `*` (`none`) or a primary tag with subtags. -/
def renderRange : Option (List Char × List (List Char)) → List Char
  | none => ['*']
  | some (tag, subs) => tag ++ renderSubtags subs

def validRange : Option (List Char × List (List Char)) → Prop
  | none => True
  | some (tag, subs) =>
    tag ≠ [] ∧ tag.length ≤ 8 ∧ (∀ c ∈ tag, isAlphaAZ c = true) ∧
      ∀ s ∈ subs, validSubtag s

/-- One header entry: a range with an optional weight. -/
structure ALEntryF where
  range : Option (List Char × List (List Char))
  weight : Option ALWeight

def renderEntryF (e : ALEntryF) : List Char :=
  renderRange e.range ++ renderWeightOpt e.weight

def validEntryF (e : ALEntryF) : Prop :=
  validRange e.range ∧ validWeightOpt e.weight

/-- The `lang` capture of one entry: the primary tag; nothing for `*`. -/
def capOfEntry (e : ALEntryF) : Option String :=
  e.range.map fun p => String.mk p.1

/-- An entry separator `OWS "," OWS`. -/
structure ALSep where
  ows1 : List Char
  ows2 : List Char

def validSep (s : ALSep) : Prop := validOWS s.ows1 ∧ validOWS s.ows2

/-- Render the comma-separated tail of a header. -/
def renderTailF : List (ALSep × ALEntryF) → List Char
  | [] => []
  | (sep, e) :: rest =>
    sep.ows1 ++ ',' :: (sep.ows2 ++ (renderEntryF e ++ renderTailF rest))

/-- Render a header: empty, or a first entry and a separated tail. -/
def renderALHeader : Option (ALEntryF × List (ALSep × ALEntryF)) → List Char
  | none => []
  | some (e, rest) => renderEntryF e ++ renderTailF rest

def validALHeader : Option (ALEntryF × List (ALSep × ALEntryF)) → Prop
  | none => True
  | some (e, rest) => validEntryF e ∧ ∀ p ∈ rest, validSep p.1 ∧ validEntryF p.2

/-- The expected `lang` captures of a header, in header order (`none`
for a wildcard range). -/
def headerCaps : Option (ALEntryF × List (ALSep × ALEntryF)) → List (Option String)
  | none => []
  | some (e, rest) => capOfEntry e :: rest.map fun p => capOfEntry p.2

/-- The head of the list (if any) fails `p`. -/
def headNot (p : Char → Bool) : List Char → Prop
  | [] => True
  | c :: _ => p c = false

/-- What may legally follow a language range in a rendered header: a
weight (leading OWS or `;`), a separator (leading OWS or `,`), or the
end. -/
def afterRange (cs : List Char) : Prop :=
  match cs with
  | [] => True
  | c :: _ => c = ';' ∨ c = ',' ∨ isOWS c = true

/-- What may legally follow a consumed weight: a separator or the end. -/
def afterQ (cs : List Char) : Prop :=
  match cs with
  | [] => True
  | c :: _ => c = ',' ∨ isOWS c = true

theorem isOWS_cases {c : Char} (h : isOWS c = true) : c = ' ' ∨ c = '\t' := by
  rw [isOWS, Bool.or_eq_true, decide_eq_true_eq, decide_eq_true_eq] at h
  exact h

theorem afterRange_not_alpha {cs : List Char} (h : afterRange cs) :
    headNot isAlphaAZ cs := by
  cases cs with
  | nil => trivial
  | cons c r =>
    rcases h with h1 | h1 | h1
    · subst h1; exact (show isAlphaAZ ';' = false by decide)
    · subst h1; exact (show isAlphaAZ ',' = false by decide)
    · rcases isOWS_cases h1 with h2 | h2 <;> subst h2
      · exact (show isAlphaAZ ' ' = false by decide)
      · exact (show isAlphaAZ '\t' = false by decide)

theorem afterRange_not_alnum {cs : List Char} (h : afterRange cs) :
    headNot isAlphaNumB cs := by
  cases cs with
  | nil => trivial
  | cons c r =>
    rcases h with h1 | h1 | h1
    · subst h1; exact (show isAlphaNumB ';' = false by decide)
    · subst h1; exact (show isAlphaNumB ',' = false by decide)
    · rcases isOWS_cases h1 with h2 | h2 <;> subst h2
      · exact (show isAlphaNumB ' ' = false by decide)
      · exact (show isAlphaNumB '\t' = false by decide)

theorem afterQ_not_digit {cs : List Char} (h : afterQ cs) :
    headNot isDigitB cs := by
  cases cs with
  | nil => trivial
  | cons c r =>
    rcases h with h1 | h1
    · subst h1; exact (show isDigitB ',' = false by decide)
    · rcases isOWS_cases h1 with h2 | h2 <;> subst h2
      · exact (show isDigitB ' ' = false by decide)
      · exact (show isDigitB '\t' = false by decide)

theorem takeMax_exact (p : Char → Bool) (tok rest : List Char) :
    ∀ n : ℕ, tok.length ≤ n → (∀ c ∈ tok, p c = true) → headNot p rest →
      takeMax p n (tok ++ rest) = (tok, rest) := by
  induction tok with
  | nil =>
    intro n _ _ hrest
    cases n with
    | zero => rfl
    | succ m =>
      cases rest with
      | nil => rfl
      | cons c r2 =>
        simp only [List.nil_append, takeMax]
        rw [if_neg]
        simp [headNot] at hrest
        simp [hrest]
  | cons t tok2 ih =>
    intro n hlen hall hrest
    cases n with
    | zero => exact absurd hlen (by simp)
    | succ m =>
      simp only [List.cons_append, takeMax]
      rw [if_pos (hall t (List.mem_cons_self t tok2))]
      have h2 := ih m (by simpa using hlen)
        (fun c hc => hall c (List.mem_cons_of_mem t hc)) hrest
      simp only [List.append_eq, h2]

theorem skipOWS_not (cs : List Char) (h : headNot isOWS cs) :
    skipOWS cs = cs := by
  cases cs with
  | nil => rfl
  | cons c r =>
    rw [skipOWS, if_neg]
    simp [headNot] at h
    simp [h]

theorem skipOWS_append (ows l : List Char) (h : validOWS ows) :
    skipOWS (ows ++ l) = skipOWS l := by
  induction ows with
  | nil => rfl
  | cons c r ih =>
    rw [List.cons_append, skipOWS, if_pos (h c (List.mem_cons_self c r))]
    exact ih fun x hx => h x (List.mem_cons_of_mem c hx)

theorem alpha_not_ows {c : Char} (h : isAlphaAZ c = true) : isOWS c = false := by
  by_contra hc
  rw [Bool.not_eq_false, isOWS, Bool.or_eq_true] at hc
  rcases hc with h1 | h1 <;> rw [decide_eq_true_eq] at h1 <;> subst h1 <;>
    exact absurd h (by decide)

theorem skipSubtags_afterRange (cs : List Char) (h : afterRange cs) :
    ∀ fuel : ℕ, skipSubtags fuel cs = cs := by
  intro fuel
  cases fuel with
  | zero => rfl
  | succ f =>
    cases cs with
    | nil => rfl
    | cons c r =>
      rcases h with h1 | h1 | h1
      · subst h1; rfl
      · subst h1; rfl
      · rcases isOWS_cases h1 with h2 | h2 <;> subst h2 <;> rfl

theorem renderSubtags_length (subs : List (List Char)) :
    subs.length ≤ (renderSubtags subs).length := by
  induction subs with
  | nil => simp [renderSubtags]
  | cons s rest ih =>
    simp only [renderSubtags, List.length_cons, List.length_append]
    omega

theorem skipSubtags_render (subs : List (List Char)) :
    ∀ (rest : List Char) (fuel : ℕ), subs.length ≤ fuel →
      (∀ s ∈ subs, validSubtag s) → afterRange rest →
      skipSubtags fuel (renderSubtags subs ++ rest) = rest := by
  induction subs with
  | nil =>
    intro rest fuel _ _ hr
    exact skipSubtags_afterRange rest hr fuel
  | cons s subs2 ih =>
    intro rest fuel hfuel hval hr
    obtain ⟨hne, hlen, hall⟩ := hval s (List.mem_cons_self s subs2)
    cases fuel with
    | zero => exact absurd hfuel (by simp)
    | succ f =>
      cases s with
      | nil => exact absurd rfl hne
      | cons c s2 =>
        rw [show renderSubtags ((c :: s2) :: subs2) ++ rest =
          '-' :: c :: (s2 ++ (renderSubtags subs2 ++ rest)) from by
            simp [renderSubtags]]
        show (if isAlphaNumB c then
            skipSubtags f (takeMax isAlphaNumB 7 (s2 ++ (renderSubtags subs2 ++ rest))).2
          else '-' :: c :: (s2 ++ (renderSubtags subs2 ++ rest))) = rest
        rw [if_pos (hall c (List.mem_cons_self c s2))]
        have hhead : headNot isAlphaNumB (renderSubtags subs2 ++ rest) := by
          cases subs2 with
          | nil => exact afterRange_not_alnum hr
          | cons s3 r3 => exact (show isAlphaNumB '-' = false by decide)
        rw [takeMax_exact isAlphaNumB s2 (renderSubtags subs2 ++ rest) 7
          (by simpa using hlen) (fun x hx => hall x (List.mem_cons_of_mem c hx)) hhead]
        exact ih rest f (by simpa using hfuel)
          (fun x hx => hval x (List.mem_cons_of_mem (c :: s2) hx)) hr

theorem parseRange_wild (rest : List Char) :
    parseRange ('*' :: rest) = some (none, rest) := rfl

theorem parseRange_tagged (tag : List Char) (subs : List (List Char))
    (rest : List Char) (hne : tag ≠ []) (hlen : tag.length ≤ 8)
    (hall : ∀ c ∈ tag, isAlphaAZ c = true) (hsubs : ∀ s ∈ subs, validSubtag s)
    (hr : afterRange rest) :
    parseRange (tag ++ (renderSubtags subs ++ rest)) =
      some (some (String.mk tag), rest) := by
  have hhead : headNot isAlphaAZ (renderSubtags subs ++ rest) := by
    cases subs with
    | nil => exact afterRange_not_alpha hr
    | cons s r2 => exact (show isAlphaAZ '-' = false by decide)
  have ht := takeMax_exact isAlphaAZ tag (renderSubtags subs ++ rest) 8 hlen hall hhead
  cases tag with
  | nil => exact absurd rfl hne
  | cons t tag2 =>
    rw [parseRange, ht]
    · show some (some (String.mk (t :: tag2)),
        skipSubtags (renderSubtags subs ++ rest).length
          (renderSubtags subs ++ rest)) = _
      rw [skipSubtags_render subs rest _
        (le_trans (renderSubtags_length subs) (by rw [List.length_append]; omega))
        hsubs hr]
    · intro r1 heq
      injection heq with h1 h2
      have h3 := hall t (List.mem_cons_self t tag2)
      rw [h1] at h3
      exact absurd h3 (by decide)

theorem parseQvalue_render (q : QvalForm) (hq : validQval q) (rest : List Char)
    (hr : afterQ rest) : parseQvalue (renderQval q ++ rest) = some rest := by
  cases q with
  | zeroDot ds =>
    obtain ⟨h1, h2⟩ := hq
    show some (takeMax isDigitB 3 (ds ++ rest)).2 = some rest
    rw [takeMax_exact isDigitB ds rest 3 h1 h2 (afterQ_not_digit hr)]
  | zeroPlain =>
    show parseQvalue ('0' :: rest) = some rest
    cases rest with
    | nil => rfl
    | cons c r =>
      rcases hr with h1 | h1
      · subst h1; rfl
      · rcases isOWS_cases h1 with h2 | h2 <;> subst h2 <;> rfl
  | oneDot zs =>
    obtain ⟨h1, h2⟩ := hq
    show some (takeMax (fun c => decide (c = '0')) 3 (zs ++ rest)).2 = some rest
    have hz : headNot (fun c => decide (c = '0')) rest := by
      cases rest with
      | nil => trivial
      | cons c r =>
        rcases hr with h1b | h1b
        · subst h1b; exact (show decide (',' = '0') = false by decide)
        · rcases isOWS_cases h1b with h2b | h2b <;> subst h2b
          · exact (show decide (' ' = '0') = false by decide)
          · exact (show decide ('\t' = '0') = false by decide)
    rw [takeMax_exact (fun c => decide (c = '0')) zs rest 3 h1
      (fun c hc => by simp [h2 c hc]) hz]
  | onePlain =>
    show parseQvalue ('1' :: rest) = some rest
    cases rest with
    | nil => rfl
    | cons c r =>
      rcases hr with h1 | h1
      · subst h1; rfl
      · rcases isOWS_cases h1 with h2 | h2 <;> subst h2 <;> rfl

theorem parseWeight_full (w : ALWeight) (hw : validWeight w) (rest : List Char)
    (hr : afterQ rest) : parseWeight (renderWeight w ++ rest) = rest := by
  obtain ⟨h1, h2, h3⟩ := hw
  rw [show renderWeight w ++ rest =
    w.ows1 ++ ';' :: (w.ows2 ++ 'q' :: '=' :: (renderQval w.q ++ rest)) from by
      simp [renderWeight]]
  rw [parseWeight]
  rw [skipOWS_append w.ows1 _ h1]
  rw [skipOWS_not (';' :: (w.ows2 ++ 'q' :: '=' :: (renderQval w.q ++ rest)))
    (show isOWS ';' = false by decide)]
  show (match skipOWS (w.ows2 ++ 'q' :: '=' :: (renderQval w.q ++ rest)) with
    | 'q' :: '=' :: r2 =>
      (match parseQvalue r2 with
       | some r3 => r3
       | none => w.ows1 ++ ';' :: (w.ows2 ++ 'q' :: '=' :: (renderQval w.q ++ rest)))
    | _ => w.ows1 ++ ';' :: (w.ows2 ++ 'q' :: '=' :: (renderQval w.q ++ rest))) = rest
  rw [skipOWS_append w.ows2 _ h2]
  rw [skipOWS_not ('q' :: '=' :: (renderQval w.q ++ rest))
    (show isOWS 'q' = false by decide)]
  show (match parseQvalue (renderQval w.q ++ rest) with
    | some r3 => r3
    | none => w.ows1 ++ ';' :: (w.ows2 ++ 'q' :: '=' :: (renderQval w.q ++ rest))) = rest
  rw [parseQvalue_render w.q h3 rest hr]

theorem parseWeight_tail (tail : List (ALSep × ALEntryF))
    (hval : ∀ p ∈ tail, validSep p.1 ∧ validEntryF p.2) :
    parseWeight (renderTailF tail) = renderTailF tail := by
  cases tail with
  | nil => rfl
  | cons p rest =>
    obtain ⟨⟨hs1, hs2⟩, he⟩ := hval p (List.mem_cons_self p rest)
    rcases p with ⟨sep, e⟩
    rw [show renderTailF ((sep, e) :: rest) =
      sep.ows1 ++ ',' :: (sep.ows2 ++ (renderEntryF e ++ renderTailF rest)) from rfl]
    rw [parseWeight]
    rw [skipOWS_append sep.ows1 _ hs1]
    rw [skipOWS_not (',' :: (sep.ows2 ++ (renderEntryF e ++ renderTailF rest)))
      (show isOWS ',' = false by decide)]
    rfl

theorem renderEntryF_head_not_ows (e : ALEntryF) (hv : validEntryF e)
    (l : List Char) : headNot isOWS (renderEntryF e ++ l) := by
  rcases e with ⟨range, w⟩
  cases range with
  | none => exact (show isOWS '*' = false by decide)
  | some p =>
    rcases p with ⟨tag, subs⟩
    obtain ⟨⟨hne, hl8, hall, hsub⟩, -⟩ := hv
    cases tag with
    | nil => exact absurd rfl hne
    | cons t tag2 => exact alpha_not_ows (hall t (List.mem_cons_self t tag2))

theorem afterRange_wtail (wopt : Option ALWeight)
    (tail : List (ALSep × ALEntryF))
    (hw : validWeightOpt wopt)
    (htail : ∀ p ∈ tail, validSep p.1 ∧ validEntryF p.2) :
    afterRange (renderWeightOpt wopt ++ renderTailF tail) := by
  cases wopt with
  | some w =>
    have hvw : validWeight w := hw
    cases hos : w.ows1 with
    | nil =>
      show afterRange (renderWeight w ++ renderTailF tail)
      rw [renderWeight, hos, List.nil_append]
      exact Or.inl rfl
    | cons c r =>
      show afterRange (renderWeight w ++ renderTailF tail)
      rw [renderWeight, hos, List.cons_append]
      exact Or.inr (Or.inr (hvw.1 c (by rw [hos]; exact List.mem_cons_self c r)))
  | none =>
    rw [show renderWeightOpt none = ([] : List Char) from rfl, List.nil_append]
    cases tail with
    | nil => trivial
    | cons p r =>
      rcases p with ⟨sep, e⟩
      obtain ⟨⟨hs1, -⟩, -⟩ := htail (sep, e) (List.mem_cons_self _ _)
      cases hos : sep.ows1 with
      | nil =>
        show afterRange (sep.ows1 ++ ',' :: _)
        rw [hos, List.nil_append]
        exact Or.inr (Or.inl rfl)
      | cons c r2 =>
        show afterRange (sep.ows1 ++ ',' :: _)
        rw [hos, List.cons_append]
        exact Or.inr (Or.inr (hs1 c (by rw [hos]; exact List.mem_cons_self c r2)))

theorem afterQ_tail (tail : List (ALSep × ALEntryF))
    (htail : ∀ p ∈ tail, validSep p.1 ∧ validEntryF p.2) :
    afterQ (renderTailF tail) := by
  cases tail with
  | nil => trivial
  | cons p r =>
    rcases p with ⟨sep, e⟩
    obtain ⟨⟨hs1, -⟩, -⟩ := htail (sep, e) (List.mem_cons_self _ _)
    cases hos : sep.ows1 with
    | nil =>
      show afterQ (sep.ows1 ++ ',' :: _)
      rw [hos, List.nil_append]
      exact Or.inl rfl
    | cons c r2 =>
      show afterQ (sep.ows1 ++ ',' :: _)
      rw [hos, List.cons_append]
      exact Or.inr (hs1 c (by rw [hos]; exact List.mem_cons_self c r2))

theorem parseEntry_step (e : ALEntryF) (hv : validEntryF e)
    (tail : List (ALSep × ALEntryF))
    (htail : ∀ p ∈ tail, validSep p.1 ∧ validEntryF p.2) :
    parseRange (renderEntryF e ++ renderTailF tail) =
      some (capOfEntry e, renderWeightOpt e.weight ++ renderTailF tail) ∧
    parseWeight (renderWeightOpt e.weight ++ renderTailF tail) =
      renderTailF tail := by
  obtain ⟨hrange, hweight⟩ := hv
  constructor
  · rw [show renderEntryF e ++ renderTailF tail =
      renderRange e.range ++ (renderWeightOpt e.weight ++ renderTailF tail) from by
        rw [renderEntryF, List.append_assoc]]
    have har := afterRange_wtail e.weight tail hweight htail
    cases hr : e.range with
    | none =>
      rw [show renderRange none = ['*'] from rfl, List.cons_append,
        List.nil_append, parseRange_wild]
      rw [capOfEntry, hr]
      rfl
    | some p =>
      rcases p with ⟨tag, subs⟩
      rw [hr] at hrange
      obtain ⟨hne, hlen, hall, hsubs⟩ := hrange
      rw [show renderRange (some (tag, subs)) ++
        (renderWeightOpt e.weight ++ renderTailF tail) =
        tag ++ (renderSubtags subs ++
          (renderWeightOpt e.weight ++ renderTailF tail)) from by
          rw [renderRange, List.append_assoc]]
      rw [parseRange_tagged tag subs _ hne hlen hall hsubs har]
      rw [capOfEntry, hr]
      rfl
  · cases hw : e.weight with
    | some w =>
      rw [hw] at hweight
      exact parseWeight_full w hweight (renderTailF tail) (afterQ_tail tail htail)
    | none =>
      rw [show renderWeightOpt none ++ renderTailF tail = renderTailF tail from
        List.nil_append _]
      exact parseWeight_tail tail htail

theorem renderTailF_length (tail : List (ALSep × ALEntryF)) :
    tail.length ≤ (renderTailF tail).length := by
  induction tail with
  | nil => simp [renderTailF]
  | cons p rest ih =>
    rcases p with ⟨sep, e⟩
    simp only [renderTailF, List.length_cons, List.length_append]
    omega

theorem parseMore_tailF (tail : List (ALSep × ALEntryF)) :
    ∀ (fuel : ℕ) (acc : List (Option String)), tail.length ≤ fuel →
      (∀ p ∈ tail, validSep p.1 ∧ validEntryF p.2) →
      parseMore fuel (renderTailF tail) acc =
        acc ++ tail.map fun p => capOfEntry p.2 := by
  induction tail with
  | nil =>
    intro fuel acc _ _
    cases fuel with
    | zero => simp [parseMore]
    | succ f => simp [parseMore, renderTailF, skipOWS]
  | cons p rest ih =>
    intro fuel acc hfuel hval
    cases fuel with
    | zero => exact absurd hfuel (by simp)
    | succ f =>
      rcases p with ⟨sep, e⟩
      obtain ⟨⟨hs1, hs2⟩, he2⟩ := hval (sep, e) (List.mem_cons_self _ _)
      rw [show renderTailF ((sep, e) :: rest) =
        sep.ows1 ++ ',' :: (sep.ows2 ++ (renderEntryF e ++ renderTailF rest)) from rfl]
      rw [parseMore]
      rw [skipOWS_append sep.ows1 _ hs1]
      rw [skipOWS_not (',' :: (sep.ows2 ++ (renderEntryF e ++ renderTailF rest)))
        (show isOWS ',' = false by decide)]
      show (match parseRange (skipOWS (sep.ows2 ++ (renderEntryF e ++ renderTailF rest))) with
        | some (cap, r2) => parseMore f (parseWeight r2) (acc ++ [cap])
        | none => acc) = _
      rw [skipOWS_append sep.ows2 _ hs2]
      rw [skipOWS_not (renderEntryF e ++ renderTailF rest)
        (renderEntryF_head_not_ows e he2 (renderTailF rest))]
      have hstep := parseEntry_step e he2 rest
        (fun x hx => hval x (List.mem_cons_of_mem _ hx))
      rw [hstep.1]
      show parseMore f
        (parseWeight (renderWeightOpt e.weight ++ renderTailF rest))
        (acc ++ [capOfEntry e]) = _
      rw [hstep.2]
      rw [ih f (acc ++ [capOfEntry e]) (by simpa using hfuel)
        (fun x hx => hval x (List.mem_cons_of_mem _ hx))]
      simp

/-- Parsing a rendered well-formed header yields exactly the `lang`
captures of its entries, in header order. -/
theorem acceptLanguageCaptures_full
    (h : Option (ALEntryF × List (ALSep × ALEntryF)))
    (hval : validALHeader h) :
    acceptLanguageCaptures (String.mk (renderALHeader h)) = headerCaps h := by
  cases h with
  | none => rfl
  | some p =>
    rcases p with ⟨e, tail⟩
    obtain ⟨he, htail⟩ := hval
    have hstep := parseEntry_step e he tail htail
    rw [acceptLanguageCaptures]
    rw [show (String.mk (renderALHeader (some (e, tail)))).toList =
      renderEntryF e ++ renderTailF tail from rfl]
    rw [hstep.1]
    show parseMore (renderEntryF e ++ renderTailF tail).length
      (parseWeight (renderWeightOpt e.weight ++ renderTailF tail))
      [capOfEntry e] = _
    rw [hstep.2]
    rw [parseMore_tailF tail _ _ (by
      have := renderTailF_length tail
      rw [List.length_append]
      omega) htail]
    rfl

theorem validOWS_nil : validOWS [] := by
  intro c hc
  cases hc

theorem validOWS_sp : validOWS [' '] := by
  intro c hc
  rw [List.mem_singleton] at hc
  subst hc
  decide

/-- C8 counterexample: in the header `en;q=0, de` the range `en` carries
q-value 0 and `de` the default 1, so ordering by descending q-value (as
the claim states) would put `de` first; the code ignores q-values and
returns header order, `["en", "de"]`. Moreover the claim's output is "the
list of language ranges", but the code keeps only the captured primary
subtag of each range: `en-gb` yields `["en"]`, not the range `["en-gb"]`,
and the wildcard range `*` (captureless) yields nothing at all. -/
theorem C8_qvalue_order_counterexample :
    parse_accept_language "en;q=0, de" = ["en", "de"] ∧
    specAcceptLanguage [("en", 0), ("de", 1)] = ["de", "en"] ∧
    parse_accept_language "en;q=0, de" ≠
      specAcceptLanguage [("en", 0), ("de", 1)] ∧
    parse_accept_language "en-gb" = ["en"] ∧
    parse_accept_language "en-gb" ≠ ["en-gb"] ∧
    parse_accept_language "*" = [] ∧
    parse_accept_language "*" ≠ ["*"] :=
  ⟨by decide, by decide, by decide, by decide, by decide, by decide, by decide⟩

/-- C8 (amended): parsing a syntactically valid Accept-Language header
yields the primary subtags of its non-wildcard language ranges in HEADER
order — q-values are consumed and ignored, a wildcard range contributes
nothing, a subtagged range contributes only its primary subtag — with
duplicates removed keeping the first occurrence. Proved for every header
generated by the RFC 9110 grammar (every value of the render family:
wildcard or subtagged ranges, any of the four qvalue forms or no weight,
arbitrary optional whitespace around `;` and `,`), and checked on the
repository's own test vectors. -/
theorem C8_amended_header_order
    (h : Option (ALEntryF × List (ALSep × ALEntryF)))
    (hval : validALHeader h) :
    parse_accept_language (String.mk (renderALHeader h)) =
      dedupKeepFirst [] ((headerCaps h).filterMap id) ∧
    parse_accept_language "da, en-gb;q=0.8, en;q=0.7" = ["da", "en"] ∧
    parse_accept_language "fr-CH, fr;q=0.9, en;q=0.8, de;q=0.7, *;q=0.5" =
      ["fr", "en", "de"] ∧
    parse_accept_language "en-US,en;q=0.5" = ["en"] := by
  refine ⟨?_, by decide, by decide, by decide⟩
  rw [parse_accept_language, acceptLanguageCaptures_full h hval]

/-- A concrete header exercising the whole grammar: a subtagged range
with a `0.8` weight and whitespace after the `;`, a wildcard range with
a `q=1` weight and whitespace before the `;`, and a bare range, with
varying whitespace around the commas; it renders to
`en-gb; q=0.8, * ;q=1 , de`. -/
def c8hdr : Option (ALEntryF × List (ALSep × ALEntryF)) :=
  some (⟨some (['e', 'n'], [['g', 'b']]), some ⟨[], [' '], QvalForm.zeroDot ['8']⟩⟩,
    [(⟨[], [' ']⟩, ⟨none, some ⟨[' '], [], QvalForm.onePlain⟩⟩),
     (⟨[' '], [' ']⟩, ⟨some (['d', 'e'], []), none⟩)])

/-- C8 witness: the amended header-order law at the concrete header
`en-gb; q=0.8, * ;q=1 , de`, whose parse is `["en", "de"]`. -/
theorem C8_amended_header_order_witness :
    validALHeader c8hdr ∧
    parse_accept_language (String.mk (renderALHeader c8hdr)) =
      dedupKeepFirst [] ((headerCaps c8hdr).filterMap id) ∧
    parse_accept_language "en-gb; q=0.8, * ;q=1 , de" = ["en", "de"] := by
  have hval : validALHeader c8hdr := by
    refine ⟨⟨⟨by decide, by decide, by decide, ?_⟩,
      ⟨validOWS_nil, validOWS_sp, by decide, by decide⟩⟩, ?_⟩
    · intro s hs
      rw [List.mem_singleton] at hs
      subst hs
      exact ⟨by decide, by decide, by decide⟩
    · intro p hp
      rw [List.mem_cons, List.mem_singleton] at hp
      rcases hp with rfl | rfl
      · exact ⟨⟨validOWS_nil, validOWS_sp⟩,
          ⟨True.intro, ⟨validOWS_sp, validOWS_nil, True.intro⟩⟩⟩
      · exact ⟨⟨validOWS_sp, validOWS_sp⟩,
          ⟨⟨by decide, by decide, by decide, fun s hs => absurd hs (List.not_mem_nil s)⟩,
            True.intro⟩⟩
  exact ⟨hval, (C8_amended_header_order c8hdr hval).1, by decide⟩


/-! ## The dispatcher's two-tier wait (src/searchengine/search.py,
`perform_search` lines 101-121)

Timed model. Every page fetch is a task with an absolute completion time
`finish` (measured from dispatch), a `failed` flag (it would complete with
an exception) and the `EngineResults.elapsed` it reports on success.

* `await asyncio.wait(prio_tasks)` (no timeout) returns at the latest
  finish time of the important-tier tasks (`engine.weight > 1`).
* `max_time` is the largest reported `elapsed` among important tasks that
  completed without exception, 0 when there are none.
* The second `asyncio.wait(..., timeout=max(max_time * 0.5, 1 - max_time))`
  returns by `phase1End + timeout`; a task is done there iff its finish
  time is at most that deadline.
* The final loop cancels every unfinished task and records
  `TimeoutError()` for its engine ONLY when no error was recorded before
  (`if engine not in errors`); a failed fetch of the same engine that
  completed in time has already populated `errors[engine]` via the
  completion callback. -/

/-- One page-fetch task of the timed model. -/
structure TaskOutcome where
  finish : ℚ
  failed : Bool
  elapsed : ℚ
deriving DecidableEq

/-- An engine together with its page-fetch tasks. -/
structure EngineTasks where
  engine : Engine
  tasks : List TaskOutcome
deriving DecidableEq

/-- Maximum of a rational list, 0 for the empty list. -/
def maxListQ : List ℚ → ℚ
  | [] => 0
  | x :: xs => xs.foldl max x

/-- `prio_tasks`: all tasks of engines with `weight > 1`. -/
def prioTasks (input : List EngineTasks) : List TaskOutcome :=
  (input.filter fun et => decide (1 < et.engine.weight)).foldr
    (fun et acc => et.tasks ++ acc) []

/-- When `await asyncio.wait(prio_tasks)` returns. -/
def phase1End (input : List EngineTasks) : ℚ :=
  maxListQ ((prioTasks input).map fun t => t.finish)

/-- `max_time`: the slowest reported latency among successfully completed
important fetches (0 when none succeeded). -/
def maxTime (input : List EngineTasks) : ℚ :=
  maxListQ (((prioTasks input).filter fun t => !t.failed).map fun t => t.elapsed)

/-- The ordinary-tier timeout `max(max_time * 0.5, 1 - max_time)`. -/
def ordTimeout (input : List EngineTasks) : ℚ :=
  max (maxTime input * (1/2)) (1 - maxTime input)

/-- The absolute deadline after which unfinished tasks are cancelled. -/
def deadline (input : List EngineTasks) : ℚ :=
  phase1End input + ordTimeout input

/-- The error perform_search records for an engine. -/
inductive EngineErr where
  | fetchError
  | timeoutError
deriving DecidableEq

/-- The entry of `errors` for one engine after the final cancel loop: a
failed fetch that completed by the deadline was recorded by the completion
callback; otherwise an unfinished (cancelled) fetch records a
`TimeoutError`; otherwise no error. -/
def errorsAfter (input : List EngineTasks) (et : EngineTasks) : Option EngineErr :=
  if ∃ t ∈ et.tasks, t.failed = true ∧ t.finish ≤ deadline input then
    some EngineErr.fetchError
  else if ∃ t ∈ et.tasks, deadline input < t.finish then
    some EngineErr.timeoutError
  else none

theorem foldl_max_le_init (l : List ℚ) : ∀ a : ℚ, a ≤ l.foldl max a := by
  induction l with
  | nil => intro a; simp
  | cons y ys ih =>
    intro a
    exact le_trans (le_max_left a y) (ih (max a y))

theorem mem_le_foldl_max (l : List ℚ) :
    ∀ (a x : ℚ), x ∈ l → x ≤ l.foldl max a := by
  induction l with
  | nil => intro a x hx; simp at hx
  | cons y ys ih =>
    intro a x hx
    rcases List.mem_cons.1 hx with h1 | h1
    · subst h1
      exact le_trans (le_max_right a x) (foldl_max_le_init ys (max a x))
    · exact ih (max a y) x h1

theorem le_maxListQ {l : List ℚ} {x : ℚ} (hx : x ∈ l) : x ≤ maxListQ l := by
  cases l with
  | nil => simp at hx
  | cons y ys =>
    rcases List.mem_cons.1 hx with h1 | h1
    · subst h1; exact foldl_max_le_init ys x
    · exact mem_le_foldl_max ys y x h1

theorem mem_prioTasks {input : List EngineTasks} {et : EngineTasks}
    {t : TaskOutcome} (het : et ∈ input) (hw : 1 < et.engine.weight)
    (ht : t ∈ et.tasks) : t ∈ prioTasks input := by
  rw [prioTasks]
  have hmem : et ∈ input.filter fun et => decide (1 < et.engine.weight) :=
    List.mem_filter.2 ⟨het, by simpa using hw⟩
  revert hmem
  generalize input.filter (fun et => decide (1 < et.engine.weight)) = l
  intro hmem
  induction l with
  | nil => simp at hmem
  | cons e2 l2 ih =>
    rcases List.mem_cons.1 hmem with h1 | h1
    · subst h1
      exact List.mem_append_left _ ht
    · exact List.mem_append_right _ (ih h1)

/-- C3 scenario: an important engine whose single fetch finishes
immediately reporting 4 seconds of upstream latency, and an ordinary
engine with a page still in flight at the deadline and a second page that
failed quickly. -/
def c3prio : EngineTasks := ⟨⟨"google", 2⟩, [⟨0, false, 4⟩]⟩

def c3ord : EngineTasks := ⟨⟨"ddg", 1⟩, [⟨5, false, 0⟩, ⟨1, true, 0⟩]⟩

def c3input : List EngineTasks := [c3prio, c3ord]

theorem c3_deadline_eq : deadline c3input = 2 := by
  rw [deadline, ordTimeout,
    show maxTime c3input = 4 from by decide,
    show phase1End c3input = 0 from by decide]
  norm_num

/-- C3 counterexample: the ordinary engine has a fetch still unfinished
when the timeout elapses (finish 5 > deadline 2), yet its entry in
`perEngineErrors` is the earlier fetch error of its failed page, not a
`TimeoutError` — the final loop's `if engine not in errors` guard keeps
the first error. -/
theorem C3_timeout_error_counterexample :
    c3ord ∈ c3input ∧
    (∃ t ∈ c3ord.tasks, deadline c3input < t.finish) ∧
    errorsAfter c3input c3ord ≠ some EngineErr.timeoutError ∧
    errorsAfter c3input c3ord = some EngineErr.fetchError := by
  have herr : errorsAfter c3input c3ord = some EngineErr.fetchError := by
    rw [errorsAfter, if_pos]
    exact ⟨⟨1, true, 0⟩, by decide, rfl, by rw [c3_deadline_eq]; norm_num⟩
  refine ⟨by decide, ⟨⟨5, false, 0⟩, by decide, ?_⟩, ?_, herr⟩
  · rw [c3_deadline_eq]; norm_num
  · rw [herr]; decide

/-- C3 (amended): the dispatcher waits for every important-tier fetch
(engine weight > 1) with no timeout — each finishes by the phase-1
barrier; it then waits for the rest exactly
`max(0.5 * slowestImportantLatency, 1 - slowestImportantLatency)` seconds;
every fetch still unfinished at that deadline is cancelled and its engine
carries an error: a `TimeoutError` unless an error from a failed fetch of
the same engine was already recorded, which takes precedence. -/
theorem C3_amended_dispatcher (input : List EngineTasks) :
    (∀ et ∈ input, 1 < et.engine.weight → ∀ t ∈ et.tasks,
      t.finish ≤ phase1End input) ∧
    ordTimeout input = max (maxTime input * (1/2)) (1 - maxTime input) ∧
    (∀ et ∈ input, ∀ t ∈ et.tasks, deadline input < t.finish →
      (errorsAfter input et).isSome = true ∧
      ((¬ ∃ t2 ∈ et.tasks, t2.failed = true ∧ t2.finish ≤ deadline input) →
        errorsAfter input et = some EngineErr.timeoutError)) := by
  refine ⟨?_, rfl, ?_⟩
  · intro et het hw t ht
    exact le_maxListQ (List.mem_map.2 ⟨t, mem_prioTasks het hw ht, rfl⟩)
  · intro et het t ht hlate
    rw [errorsAfter]
    by_cases hc : ∃ t2 ∈ et.tasks, t2.failed = true ∧ t2.finish ≤ deadline input
    · rw [if_pos hc]
      exact ⟨rfl, fun hn => absurd hc hn⟩
    · rw [if_neg hc, if_pos ⟨t, ht, hlate⟩]
      exact ⟨rfl, fun _ => rfl⟩

/-- C3 witness: the amended dispatcher law at the concrete scenario — the
important fetch is covered by the phase-1 barrier and the straggling
ordinary fetch yields an engine error. -/
theorem C3_amended_dispatcher_witness :
    (0 : ℚ) ≤ phase1End c3input ∧
    (errorsAfter c3input c3ord).isSome = true :=
  ⟨(C3_amended_dispatcher c3input).1 c3prio (by decide) (by decide)
      ⟨0, false, 4⟩ (by decide),
   ((C3_amended_dispatcher c3input).2.2 c3ord (by decide) ⟨5, false, 0⟩
      (by decide) (by rw [c3_deadline_eq]; norm_num)).1⟩
